import Mathlib

/-!
Verification development for the skip-list container of
`src/include/skiplist.hpp` (`SkipList`, `SkipListMap`, `SkipListSet`).

The C++ heap is modelled by an arena function `Nat → Option (Elem V)`
mapping allocation ids to element nodes; `Ptr` is the type of `Node*`
values that can occur (the head sentinel `head_`, the end sentinel
`end_`, or an element).  `std::size_t` arithmetic is modelled on `Nat`
with an explicit wrap `% 2 ^ 64` where the source adds to a drawn
value.  The injected random engine/distribution pair is modelled as a
stream `engine : Nat → Nat` of distribution outputs together with a
cursor `steps`; each call of `next_level` consumes one draw, exactly as
`distribution_(engine_)` advances the engine state.

The source file keeps `end_->previous` and `tail_` identical (every
assignment in the source is of the form `end_->previous = tail_ = x`),
so the model stores the single field `tail`.

`while` loops of the source are modelled with an explicit fuel
argument; every use passes fuel that exceeds the number of iterations
the loop can make on states satisfying the representation invariant,
so the fuel-exhaustion branch is unreachable there.  Reads that are
undefined behaviour in C++ (dereferencing a null or freed `Element*`,
`front()` on an empty vector) are modelled by `Option`, with `none`
marking the undefined outcome.
-/

set_option maxHeartbeats 1600000

namespace SkipListSpec

/-- A `Node*` value: the head sentinel, the end sentinel, or an element
node identified by its allocation id. -/
inductive Ptr where
  | head : Ptr
  | end_ : Ptr
  | elem : Nat → Ptr
deriving DecidableEq

/-- An element node (`struct Element : Node`): the stored value, the
tower of forward pointers `next` (entries are `Element*`, hence
`Option Nat`), and the backward pointer `previous` (a `Node*`, null
until assigned, hence `Option Ptr`). -/
structure Elem (V : Type) where
  value : V
  next : List (Option Nat)
  previous : Option Ptr
deriving DecidableEq

/-- The state of one `SkipList` container: the arena of allocated
element nodes, the allocator's fresh-id counter, the head sentinel's
tower `head_next`, the tail pointer (kept equal to `end_->previous` by
the source), the element count `size_`, and the injected random
draw stream with its cursor. -/
structure SkipList (V : Type) where
  arena : Nat → Option (Elem V)
  nextId : Nat
  head_next : List (Option Nat)
  tail : Ptr
  size : Nat
  engine : Nat → Nat
  steps : Nat

namespace SkipList

/-- A freshly constructed container (`xinit`): no elements, empty head
tower, `end_->previous = tail_ = head_`, size zero. -/
def empty (V : Type) (eng : Nat → Nat) : SkipList V :=
  ⟨fun _ => none, 0, [], Ptr.head, 0, eng, 0⟩

variable {V : Type} {K : Type}

/-- The successor vector `p->next` of a node: the head sentinel's is
`head_next`, an element's is its tower, the end sentinel's is empty
(it is constructed as a plain `Node()` and never linked). -/
def nodeNext (s : SkipList V) (p : Ptr) : List (Option Nat) :=
  match p with
  | Ptr.head => s.head_next
  | Ptr.elem id => match s.arena id with
    | some e => e.next
    | none => []
  | Ptr.end_ => []

/-- `p->next[i]` as read by the source; an out-of-range index (undefined
behaviour in C++, unreachable under the representation invariant)
reads as a null pointer. -/
def nodeNextAt (s : SkipList V) (p : Ptr) (i : Nat) : Option Nat :=
  (nodeNext s p).getD i none

/-- `p->previous`: null for the head sentinel, the stored backward
pointer for an element (none if the id is dangling), and `tail_` for
the end sentinel. -/
def nodePrev (s : SkipList V) (p : Ptr) : Option Ptr :=
  match p with
  | Ptr.head => none
  | Ptr.elem id => (s.arena id).bind (·.previous)
  | Ptr.end_ => some s.tail

/-- `e->next[i]` for an element id. -/
def elemNextAt (s : SkipList V) (id : Nat) (i : Nat) : Option Nat :=
  match s.arena id with
  | some e => e.next.getD i none
  | none => none

/-- The tower height of an element node (`e->next.size()`); 0 for a
dangling id. -/
def heightOf (s : SkipList V) (id : Nat) : Nat :=
  match s.arena id with
  | some e => e.next.length
  | none => 0

/-- The stored value of an element node. -/
def valueAt (s : SkipList V) (id : Nat) : Option V :=
  (s.arena id).map (·.value)

/-- The key of an element node (its id must be live, otherwise the
default is returned; the invariant makes the default unreachable). -/
def keyAt [Inhabited K] (keyOf : V → K) (s : SkipList V) (id : Nat) : K :=
  match s.arena id with
  | some e => keyOf e.value
  | none => default

/-- `next_level()`: `distribution_(engine_) + 1` in `std::size_t`
arithmetic.  The source applies no upper cap. -/
def next_level (d : Nat) : Nat :=
  (d + 1) % 2 ^ 64

/-- `xequal`: neither key compares less than the other. -/
def xequal [LinearOrder K] (a b : K) : Bool :=
  !(decide (a < b)) && !(decide (b < a))

/-- The inner `while` of the search descents: starting from `node`,
advance along level-`i` forward pointers while the successor exists and
its key compares less than `key` (`xfind` and `xinsert` share this loop
shape).  A dangling successor id stops the walk (in C++ this read would
be undefined; it is unreachable under the invariant). -/
def advance [LinearOrder K] (keyOf : V → K) (s : SkipList V) (key : K)
    (i : Nat) : Nat → Ptr → Ptr
  | 0, node => node
  | fuel + 1, node =>
    match nodeNextAt s node i with
    | none => node
    | some nid =>
      match s.arena nid with
      | none => node
      | some e =>
        if keyOf e.value < key then advance keyOf s key i fuel (Ptr.elem nid)
        else node

/-- The outer `for` of `xfind`: process levels `lvls - 1` down to `0`,
running the `advance` loop at each level. -/
def descend [LinearOrder K] (keyOf : V → K) (s : SkipList V) (key : K) :
    Nat → Ptr → Ptr
  | 0, node => node
  | i + 1, node => descend keyOf s key i (advance keyOf s key i (s.size + 1) node)

/-- The outer `for` of `xinsert`: as `descend`, but also record, per
level, the last node visited before descending (`update_[i]`).  The
returned list has the node recorded for level `i` at index `i`. -/
def descendUpdate [LinearOrder K] (keyOf : V → K) (s : SkipList V) (key : K) :
    Nat → Ptr → Ptr × List Ptr
  | 0, node => (node, [])
  | i + 1, node =>
    let node' := advance keyOf s key i (s.size + 1) node
    let r := descendUpdate keyOf s key i node'
    (r.1, r.2 ++ [node'])

/-- `xfind(key)`: descend from the top level of the head tower, then
test the level-0 successor of the final position.  The source reads
`node->next.front()->value` without a null check, so a null successor
(reached whenever `key` is greater than every stored key in a nonempty
container) dereferences a null `Element*`; this undefined outcome is
`none`.  `some p` is the returned `Node*` (the matching node's level-0
predecessor, or the end sentinel). -/
def xfind [LinearOrder K] (keyOf : V → K) (s : SkipList V) (key : K) :
    Option Ptr :=
  let node := descend keyOf s key s.head_next.length Ptr.head
  if (nodeNext s node).isEmpty then some Ptr.end_
  else
    match nodeNextAt s node 0 with
    | none => none
    | some nid =>
      match s.arena nid with
      | none => none
      | some e => if xequal (keyOf e.value) key then some node else some Ptr.end_

/-- Overwrite `p->next[i]` (`update_[i]->next[i] = ...` and the erase
unlink); writing through the end sentinel never occurs in the source. -/
def setNextAt (s : SkipList V) (p : Ptr) (i : Nat) (v : Option Nat) :
    SkipList V :=
  match p with
  | Ptr.head => { s with head_next := s.head_next.set i v }
  | Ptr.elem id =>
    { s with arena := fun j =>
        if j = id then (s.arena j).map (fun e => { e with next := e.next.set i v })
        else s.arena j }
  | Ptr.end_ => s

/-- `node->next.push_back(v)` for the element `id`. -/
def pushNext (s : SkipList V) (id : Nat) (v : Option Nat) : SkipList V :=
  { s with arena := fun j =>
      if j = id then (s.arena j).map (fun e => { e with next := e.next ++ [v] })
      else s.arena j }

/-- Overwrite `id->previous`. -/
def setPrevious (s : SkipList V) (id : Nat) (p : Option Ptr) : SkipList V :=
  { s with arena := fun j =>
      if j = id then (s.arena j).map (fun e => { e with previous := p })
      else s.arena j }

/-- The splicing `for` of `xinsert`: for each level `i` below the drawn
height, read the old successor `update_[i]->next[i]`, push it onto the
new node's tower, and repoint `update_[i]->next[i]` to the new node. -/
def spliceLoop (nid : Nat) (upd : List Ptr) : Nat → Nat → SkipList V → SkipList V
  | _, 0, s => s
  | i, rem + 1, s =>
    let p := upd.getD i Ptr.head
    let successor := nodeNextAt s p i
    spliceLoop nid upd (i + 1) rem (setNextAt (pushNext s nid successor) p i (some nid))

/-- The non-duplicate branch of `xinsert` (the source's `else` block),
with `upd0` the update vector recorded by the descent: draw the height
(consuming one random draw), grow the head tower if the height exceeds
it (defaulting the new levels' predecessor to the head), construct the
node (`xconstruct`, taking the fresh allocation id), splice it at every
level, let its level-0 successor point back at it, set its backward
pointer to `update_.front()`, repoint `end_->previous`/`tail_` when it
became the last node, and increment the size.  The returned iterator
node is `node->previous`. -/
def xinsertFresh (s : SkipList V) (upd0 : List Ptr) (value : V) :
    (Ptr × Bool) × SkipList V :=
  let level := next_level (s.engine s.steps)
  let s0 : SkipList V := { s with steps := s.steps + 1 }
  let headLen := s0.head_next.length
  -- The source grows `update_` and the head tower only under
  -- `level > head_->next.size()`; with truncated subtraction the two
  -- appends below are empty in the other case, so the guard is elided.
  let upd : List Ptr := upd0 ++ List.replicate (level - headLen) Ptr.head
  let s1 : SkipList V :=
    { s0 with head_next := s0.head_next ++ List.replicate (level - headLen) none }
  let nid := s1.nextId
  let s2 : SkipList V :=
    { s1 with arena := fun j => if j = nid then some ⟨value, [], none⟩ else s1.arena j,
              nextId := s1.nextId + 1 }
  let s3 := spliceLoop nid upd 0 level s2
  let s4 :=
    match nodeNextAt s3 (Ptr.elem nid) 0 with
    | some sid => setPrevious s3 sid (some (Ptr.elem nid))
    | none => s3
  let s5 := setPrevious s4 nid (some (upd.getD 0 Ptr.head))
  let s6 :=
    if s5.tail = Ptr.head ∨ (s5.arena nid).bind (·.previous) = some s5.tail then
      { s5 with tail := Ptr.elem nid }
    else s5
  ((upd.getD 0 Ptr.head, true), { s6 with size := s6.size + 1 })

/-- `xinsert(where, value)`: the full insertion algorithm.  The `hint`
iterator is only ever used by the source's `assert(where.parent ==
this)`; the descent always starts at the head sentinel.  Returns the
`(iterator node, inserted)` pair together with the post state. -/
def xinsert [LinearOrder K] (keyOf : V → K) (s : SkipList V) (hint : Ptr)
    (value : V) : (Ptr × Bool) × SkipList V :=
  let key := keyOf value
  let d := descendUpdate keyOf s key s.head_next.length Ptr.head
  let currentNode := d.1
  let dup : Option Nat :=
    if (nodeNext s currentNode).isEmpty then none
    else
      match nodeNextAt s currentNode 0 with
      | none => none
      | some vid =>
        match s.arena vid with
        | none => none
        | some e => if xequal (keyOf e.value) key then some vid else none
  match dup with
  | some vid => ((Ptr.elem vid, false), s)
  | none => xinsertFresh s d.2 value

/-- `insert(value)`: forwards to `insert(end(), value)`. -/
def insertValue [LinearOrder K] (keyOf : V → K) (s : SkipList V) (value : V) :
    (Ptr × Bool) × SkipList V :=
  xinsert keyOf s Ptr.end_ value

/-- Folding `insert(value)` over a list of values: the driver used to
state whole-sequence properties. -/
def insertAll [LinearOrder K] (keyOf : V → K) : List V → SkipList V → SkipList V
  | [], s => s
  | v :: vs, s => insertAll keyOf vs (insertValue keyOf s v).2

/-- The state reached when `eallocator_.allocate` throws inside
`xconstruct` during `xinsert`: the duplicate check has already passed,
one random draw has been consumed, and the head tower has already been
grown for the drawn height, but no node exists and no splicing has
happened; the exception then propagates with the container in this
state. -/
def xinsertAllocFail [LinearOrder K] (keyOf : V → K) (s : SkipList V)
    (value : V) : SkipList V :=
  let key := keyOf value
  let d := descendUpdate keyOf s key s.head_next.length Ptr.head
  let currentNode := d.1
  let dup : Option Nat :=
    if (nodeNext s currentNode).isEmpty then none
    else
      match nodeNextAt s currentNode 0 with
      | none => none
      | some vid =>
        match s.arena vid with
        | none => none
        | some e => if xequal (keyOf e.value) key then some vid else none
  match dup with
  | some _ => s
  | none =>
    let level := next_level (s.engine s.steps)
    let s0 : SkipList V := { s with steps := s.steps + 1 }
    let headLen := s0.head_next.length
    if headLen < level then
      { s0 with head_next := s0.head_next ++ List.replicate (level - headLen) none }
    else s0

/-- The backward `while` of `erase`'s predecessor search: walk
`previous` pointers until a node whose tower reaches level `i` is
found. -/
def climb (s : SkipList V) (i : Nat) : Nat → Ptr → Ptr
  | 0, p => p
  | fuel + 1, p =>
    if (nodeNext s p).length ≤ i then
      match nodePrev s p with
      | some q => climb s i fuel q
      | none => p
    else p

/-- The predecessor-collecting `for` of `erase`: for `i = 0, 1, ...`
continue the backward walk from the previous position and record
`update_[i]`.  `rem` counts the remaining levels (`count - i`). -/
def collectLoop (s : SkipList V) : Nat → Nat → Ptr → List Ptr
  | 0, _, _ => []
  | rem + 1, i, p =>
    let q := climb s i (s.size + 1) p
    q :: collectLoop s rem (i + 1) q

/-- The unlink `for` of `erase`: for `i` below the head tower length,
stop at the first level whose recorded predecessor is null or no longer
points at the node, otherwise repoint it to the node's successor.
`upd` carries `none` beyond the levels the node participates in; in the
source those entries of the member scratch vector hold nulls or stale
pointers from earlier calls, and on any state reachable through the
public interface the stop test fails for them in the same way (no live
node of a level above the erased node's height points at it). -/
def unlinkLoop (nid : Nat) (upd : List (Option Ptr)) :
    Nat → Nat → SkipList V → SkipList V
  | _, 0, s => s
  | i, rem + 1, s =>
    match upd.getD i none with
    | none => s
    | some p =>
      if nodeNextAt s p i = some nid then
        unlinkLoop nid upd (i + 1) rem (setNextAt s p i (nodeNextAt s (Ptr.elem nid) i))
      else s

/-- Remove the trailing null entries of the head tower
(`head_->next.erase(it.base(), head_->next.end())` after the reverse
search for the last non-null entry). -/
def trimTrailing (l : List (Option Nat)) : List (Option Nat) :=
  (l.reverse.dropWhile Option.isNone).reverse

/-- The result iterator of `erase`, computed by the source before any
unlinking: `end()` when the node is `tail_`, otherwise
`node->previous->next.front()` — still the node being erased itself. -/
def eraseResult (s : SkipList V) (nid : Nat) (node : Elem V) : Ptr :=
  if Ptr.elem nid = s.tail then Ptr.end_
  else
    match node.previous with
    | none => Ptr.end_
    | some p =>
      match nodeNextAt s p 0 with
      | some rid => Ptr.elem rid
      | none => Ptr.end_

/-- The per-level predecessors `update_[0..count)` of `erase`, collected
by backward walks starting from `node->previous`. -/
def eraseUpd (s : SkipList V) (node : Elem V) : List Ptr :=
  match node.previous with
  | some p => collectLoop s node.next.length 0 p
  | none => []

/-- The `node->next.front()->previous = previous` fix-up of `erase`
(skipped when the erased node has no level-0 successor). -/
def eraseS1 (s : SkipList V) (node : Elem V) (previous : Ptr) : SkipList V :=
  match node.next.getD 0 none with
  | some nn => setPrevious s nn (some previous)
  | none => s

/-- The state after `erase`'s unlink loop: backward-pointer fix-up, then
per-level repointing over the head tower's levels. -/
def eraseS2 (s : SkipList V) (nid : Nat) (node : Elem V) : SkipList V :=
  let upd := eraseUpd s node
  let s1 := eraseS1 s node (upd.getD 0 Ptr.head)
  unlinkLoop nid (upd.map some) 0 s1.head_next.length s1

/-- The state after `erase`'s `tail_ = previous` fix-up. -/
def eraseS3 (s : SkipList V) (nid : Nat) (node : Elem V) : SkipList V :=
  if Ptr.elem nid = (eraseS2 s nid node).tail then
    { eraseS2 s nid node with tail := (eraseUpd s node).getD 0 Ptr.head }
  else eraseS2 s nid node

/-- The tail of `erase`: destroy the node, trim the head tower's
trailing null levels, decrement the size, and pair the state with the
precomputed result iterator. -/
def eraseNode (s : SkipList V) (nid : Nat) (node : Elem V) :
    Ptr × SkipList V :=
  (eraseResult s nid node,
   { eraseS3 s nid node with
      arena := fun j => if j = nid then none else (eraseS3 s nid node).arena j,
      head_next := trimTrailing (eraseS3 s nid node).head_next,
      size := (eraseS3 s nid node).size - 1 })

/-- `erase(where)`: resolve the target node `where.node->next.front()`,
compute the result iterator (the source computes
`node->previous->next.front()` before unlinking, which is the target
node itself), collect per-level predecessors by backward walks, unlink,
fix the tail, destroy the node, trim the head tower, and decrement the
size.  `none` models the undefined behaviour of erasing through an
iterator whose node has no live level-0 successor. -/
def erase (s : SkipList V) (wh : Ptr) : Option (Ptr × SkipList V) :=
  match (nodeNext s wh).getD 0 none with
  | none => none
  | some nid =>
    match s.arena nid with
    | none => none
    | some node => some (eraseNode s nid node)

/-- The destruction `while` of `xclear`: walk backward pointers from
the tail, deallocating every element node until the head is reached. -/
def clearLoop : Nat → Ptr → SkipList V → SkipList V
  | 0, _, s => s
  | fuel + 1, p, s =>
    match p with
    | Ptr.head => s
    | Ptr.end_ => s
    | Ptr.elem id =>
      let prev := (s.arena id).bind (·.previous)
      let s' := { s with arena := fun j => if j = id then none else s.arena j }
      match prev with
      | some q => clearLoop fuel q s'
      | none => s'

/-- `clear()` / `xclear()`: if the container is nonempty, destroy every
element by walking backward from the tail and zero the size.  The
source leaves `head_->next`, `tail_` and `end_->previous` untouched. -/
def xclear (s : SkipList V) : SkipList V :=
  if s.size ≠ 0 then { clearLoop s.size s.tail s with size := 0 } else s

/-- `tail_->previous`, the comparison target of `operator++`. -/
def tailPrev (s : SkipList V) : Option Ptr :=
  nodePrev s s.tail

/-- `const_iterator::operator++`: undefined on the end sentinel (the
source asserts against it and would read `front()` of the end
sentinel's empty successor vector); otherwise jump to the end sentinel
when the node is `tail_->previous`, else move to `node->next.front()`
(a null or missing successor leaves no valid node: `none`). -/
def incr (s : SkipList V) (p : Ptr) : Option Ptr :=
  match p with
  | Ptr.end_ => none
  | p =>
    if some p = tailPrev s then some Ptr.end_
    else
      match (nodeNext s p).getD 0 none with
      | some nid => some (Ptr.elem nid)
      | none => none

/-- `const_iterator::operator--`: undefined on the head sentinel (the
source asserts against it); from the end sentinel move to
`end_->previous->previous` (which is `tail_->previous`), otherwise to
`node->previous`. -/
def decr (s : SkipList V) (p : Ptr) : Option Ptr :=
  match p with
  | Ptr.head => none
  | Ptr.end_ => tailPrev s
  | Ptr.elem id => (s.arena id).bind (·.previous)

/-- `const_iterator::operator*`: `node->next.front()->value`.  `none`
models the source's assertion failures and null/freed dereference (end
sentinel, null level-0 successor, dangling node). -/
def deref (s : SkipList V) (p : Ptr) : Option V :=
  match p with
  | Ptr.end_ => none
  | p =>
    match (nodeNext s p).getD 0 none with
    | none => none
    | some nid => (s.arena nid).map (·.value)

/-- `xbegin()`: the end sentinel when empty, otherwise the head
sentinel (whose level-0 successor is the first element). -/
def xbegin (s : SkipList V) : Ptr :=
  if s.size = 0 then Ptr.end_ else Ptr.head

/-- Forward iteration: dereference, then `operator++`, for `n` steps. -/
def forList (s : SkipList V) : Nat → Ptr → List V
  | 0, _ => []
  | n + 1, p =>
    match deref s p with
    | none => []
    | some v =>
      v :: (match incr s p with
            | some q => forList s n q
            | none => [])

/-- The values visited by forward iteration from `begin()` over `size()`
steps. -/
def forward (s : SkipList V) : List V :=
  forList s s.size (xbegin s)

/-- Backward iteration (the reverse-iterator protocol): starting from
the end sentinel, `operator--` then dereference, for `n` steps. -/
def backList (s : SkipList V) : Nat → Ptr → List V
  | 0, _ => []
  | n + 1, p =>
    match decr s p with
    | none => []
    | some q =>
      match deref s q with
      | none => []
      | some v => v :: backList s n q

/-- The values visited by reverse iteration from `rbegin()` over
`size()` steps. -/
def backward (s : SkipList V) : List V :=
  backList s s.size Ptr.end_

/-- `lower_bound(key)`: forwards to `find`. -/
def lowerBound [LinearOrder K] (keyOf : V → K) (s : SkipList V) (key : K) :
    Option Ptr :=
  xfind keyOf s key

/-- `upper_bound(key)`: `++lower_bound(key)`. -/
def upperBound [LinearOrder K] (keyOf : V → K) (s : SkipList V) (key : K) :
    Option Ptr :=
  match lowerBound keyOf s key with
  | none => none
  | some it => incr s it

/-- `std::distance` over the iterator range, by repeated `operator++`. -/
def distAux (s : SkipList V) : Nat → Ptr → Ptr → Option Nat
  | 0, _, _ => none
  | fuel + 1, p, q =>
    if p = q then some 0
    else
      match incr s p with
      | none => none
      | some p' => (distAux s fuel p' q).map (· + 1)

/-- `count(key)`: the distance across `equal_range(key) =
(lower_bound(key), upper_bound(key))`. -/
def countKey [LinearOrder K] (keyOf : V → K) (s : SkipList V) (key : K) :
    Option Nat :=
  match lowerBound keyOf s key, upperBound keyOf s key with
  | some lb, some ub => distAux s (s.size + 1) lb ub
  | _, _ => none

/-! ## Representation invariant

`Segment s i e l x` says that starting from the level-`i` entry `e`,
following level-`i` forward pointers visits exactly the element ids of
`l` in order and then reads `x`.  The level-`i` chain of a well-formed
container is a `Segment` from the head tower's entry `i` to `none`,
over the ids whose tower reaches above level `i`. -/

/-- A contiguous run of a level-`i` chain: from entry `e`, the ids of
`l` in order, exiting with pointer value `x`. -/
def Segment (s : SkipList V) (i : Nat) : Option Nat → List Nat → Option Nat → Prop
  | e, [], x => e = x
  | e, id :: rest, x => e = some id ∧ Segment s i (elemNextAt s id i) rest x

/-- Backward pointers along a run of the level-0 chain: each id's
`previous` names the node before it, starting from `p`. -/
def PrevIds (s : SkipList V) : Ptr → List Nat → Prop
  | _, [] => True
  | p, id :: rest => nodePrev s (Ptr.elem id) = some p ∧ PrevIds s (Ptr.elem id) rest

/-- The ids participating in level `i`, in level-0 chain order. -/
def levelIds (s : SkipList V) (ids : List Nat) (i : Nat) : List Nat :=
  ids.filter (fun id => decide (i < heightOf s id))

/-- The predicate tested by the descent loops: the node's key compares
less than the searched key. -/
def belowP [Inhabited K] [LinearOrder K] (keyOf : V → K) (s : SkipList V)
    (key : K) : Nat → Bool :=
  fun id => decide (keyAt keyOf s id < key)

/-- The node at which the descent leaves level `i`: the last node of
the level-`i` chain whose key is below the searched key, or the head
sentinel. -/
def bpredAt [Inhabited K] [LinearOrder K] (keyOf : V → K) (s : SkipList V)
    (ids : List Nat) (key : K) (i : Nat) : Ptr :=
  (((levelIds s ids i).takeWhile (belowP keyOf s key)).map Ptr.elem).getLastD
    Ptr.head

/-- The representation invariant tying a container state to the ghost
list `ids` of its element ids in key order: the arena holds exactly
these ids, below the allocator counter; keys strictly increase along
the chain; towers have height between 1 and the head tower's length;
each level's chain links exactly the ids reaching that level and every
head level is inhabited (so the head tower length is the tallest live
tower); backward pointers name level-0 predecessors; `tail_` is the
last element; `size_` is the element count. -/
structure Represents [Inhabited K] [LinearOrder K] (keyOf : V → K)
    (s : SkipList V) (ids : List Nat) : Prop where
  mem : ∀ id, (s.arena id).isSome ↔ id ∈ ids
  nodup : ids.Nodup
  fresh : ∀ id ∈ ids, id < s.nextId
  sorted : ids.Pairwise (fun a b => keyAt keyOf s a < keyAt keyOf s b)
  hgt_pos : ∀ id ∈ ids, 1 ≤ heightOf s id
  hgt_le : ∀ id ∈ ids, heightOf s id ≤ s.head_next.length
  links : ∀ i < s.head_next.length,
    Segment s i (s.head_next.getD i none) (levelIds s ids i) none
  level_nonempty : ∀ i < s.head_next.length, levelIds s ids i ≠ []
  prevs : PrevIds s Ptr.head ids
  tailEq : s.tail = (ids.map Ptr.elem).getLastD Ptr.head
  sizeEq : s.size = ids.length

section InvBasic

variable [Inhabited K] [LinearOrder K] {keyOf : V → K}

/-- The empty container satisfies the invariant with the empty ghost
list. -/
theorem represents_empty (eng : Nat → Nat) :
    Represents keyOf (empty V eng) ([] : List Nat) := by
  refine ⟨?_, ?_, ?_, ?_, ?_, ?_, ?_, ?_, ?_, ?_, ?_⟩ <;>
    simp [empty, PrevIds, levelIds]

theorem arena_isSome_of_mem {s : SkipList V} {ids : List Nat}
    (h : Represents keyOf s ids) {id : Nat} (hid : id ∈ ids) :
    (s.arena id).isSome := (h.mem id).mpr hid

theorem exists_elem_of_mem {s : SkipList V} {ids : List Nat}
    (h : Represents keyOf s ids) {id : Nat} (hid : id ∈ ids) :
    ∃ e, s.arena id = some e := by
  have := arena_isSome_of_mem h hid
  exact Option.isSome_iff_exists.mp this

theorem keyAt_eq {s : SkipList V} {id : Nat} {e : Elem V}
    (h : s.arena id = some e) : keyAt keyOf s id = keyOf e.value := by
  simp [keyAt, h]

end InvBasic

/-! ## Generic list lemmas used by the descent analysis -/

section ListLemmas

variable {α : Type}

theorem takeWhile_all_false {P : α → Bool} {l : List α}
    (h : ∀ a ∈ l, P a = false) : l.takeWhile P = [] := by
  cases l with
  | nil => rfl
  | cons x t => simp [List.takeWhile_cons, h x (by simp)]

theorem dropWhile_all_false {P : α → Bool} {l : List α}
    (h : ∀ a ∈ l, P a = false) : l.dropWhile P = l := by
  cases l with
  | nil => rfl
  | cons x t => simp [List.dropWhile_cons, h x (by simp)]

theorem takeWhile_append_all {P : α → Bool} {l₁ l₂ : List α}
    (h : ∀ a ∈ l₁, P a = true) :
    (l₁ ++ l₂).takeWhile P = l₁ ++ l₂.takeWhile P := by
  induction l₁ with
  | nil => simp
  | cons x t ih =>
    simp only [List.cons_append, List.takeWhile_cons, h x (by simp)]
    simp [ih (fun a ha => h a (by simp [ha]))]

theorem dropWhile_append_all {P : α → Bool} {l₁ l₂ : List α}
    (h : ∀ a ∈ l₁, P a = true) :
    (l₁ ++ l₂).dropWhile P = l₂.dropWhile P := by
  induction l₁ with
  | nil => simp
  | cons x t ih =>
    simp only [List.cons_append, List.dropWhile_cons, h x (by simp)]
    simp [ih (fun a ha => h a (by simp [ha]))]

/-- On a `Pairwise R` list, filtering commutes with `takeWhile P` when
`P` is downward closed along `R`. -/
theorem takeWhile_filter_comm {R : α → α → Prop} {P Q : α → Bool} {l : List α}
    (hl : l.Pairwise R) (hPR : ∀ a b, R a b → P b = true → P a = true) :
    (l.filter Q).takeWhile P = (l.takeWhile P).filter Q := by
  induction l with
  | nil => rfl
  | cons x t ih =>
    have hx := List.pairwise_cons.mp hl
    by_cases hPx : P x = true
    · by_cases hQx : Q x = true
      · simp [List.filter_cons, hQx, List.takeWhile_cons, hPx, ih hx.2]
      · simp only [List.filter_cons, Bool.not_eq_true] at hQx ⊢
        simp [hQx, List.takeWhile_cons, hPx, ih hx.2]
    · have hall : ∀ a ∈ t, P a = false := by
        intro a ha
        by_contra hc
        exact hPx (hPR x a (hx.1 a ha) (by revert hc; cases P a <;> simp))
      have hallf : ∀ a ∈ t.filter Q, P a = false := fun a ha =>
        hall a (List.mem_of_mem_filter ha)
      by_cases hQx : Q x = true
      · simp [List.filter_cons, hQx, List.takeWhile_cons, hPx,
          takeWhile_all_false hallf]
      · simp only [List.filter_cons, Bool.not_eq_true] at hQx ⊢
        simp [hQx, List.takeWhile_cons, hPx, takeWhile_all_false hallf,
          takeWhile_all_false hall]

/-- On a `Pairwise R` list, filtering commutes with `dropWhile P` when
`P` is downward closed along `R`. -/
theorem dropWhile_filter_comm {R : α → α → Prop} {P Q : α → Bool} {l : List α}
    (hl : l.Pairwise R) (hPR : ∀ a b, R a b → P b = true → P a = true) :
    (l.filter Q).dropWhile P = (l.dropWhile P).filter Q := by
  induction l with
  | nil => rfl
  | cons x t ih =>
    have hx := List.pairwise_cons.mp hl
    by_cases hPx : P x = true
    · by_cases hQx : Q x = true
      · simp [List.filter_cons, hQx, List.dropWhile_cons, hPx, ih hx.2]
      · simp only [List.filter_cons, Bool.not_eq_true] at hQx ⊢
        simp [hQx, List.dropWhile_cons, hPx, ih hx.2]
    · have hall : ∀ a ∈ t, P a = false := by
        intro a ha
        by_contra hc
        exact hPx (hPR x a (hx.1 a ha) (by revert hc; cases P a <;> simp))
      have hallf : ∀ a ∈ t.filter Q, P a = false := fun a ha =>
        hall a (List.mem_of_mem_filter ha)
      by_cases hQx : Q x = true
      · simp [List.filter_cons, hQx, List.dropWhile_cons, hPx,
          dropWhile_all_false hallf]
      · simp only [List.filter_cons, Bool.not_eq_true] at hQx ⊢
        simp [hQx, List.dropWhile_cons, hPx, dropWhile_all_false hallf,
          dropWhile_all_false hall]

end ListLemmas

/-! ## Segment lemmas -/

section SegmentLemmas

theorem nodeNextAt_elem (s : SkipList V) (id i : Nat) :
    nodeNextAt s (Ptr.elem id) i = elemNextAt s id i := by
  cases h : s.arena id <;> simp [nodeNextAt, nodeNext, elemNextAt, h]

theorem segment_append {s : SkipList V} {i : Nat} {e m x : Option Nat}
    {l₁ l₂ : List Nat} (h₁ : Segment s i e l₁ m) (h₂ : Segment s i m l₂ x) :
    Segment s i e (l₁ ++ l₂) x := by
  induction l₁ generalizing e with
  | nil => cases h₁; exact h₂
  | cons a t ih => exact ⟨h₁.1, ih h₁.2⟩

theorem segment_split {s : SkipList V} {i : Nat} {e x : Option Nat}
    {l₁ l₂ : List Nat} (h : Segment s i e (l₁ ++ l₂) x) :
    ∃ m, Segment s i e l₁ m ∧ Segment s i m l₂ x := by
  induction l₁ generalizing e with
  | nil => exact ⟨e, rfl, h⟩
  | cons a t ih =>
    obtain ⟨m, hm₁, hm₂⟩ := ih h.2
    exact ⟨m, ⟨h.1, hm₁⟩, hm₂⟩

theorem segment_concat_exit {s : SkipList V} {i : Nat} {e m : Option Nat}
    {l : List Nat} {a : Nat} (h : Segment s i e (l ++ [a]) m) :
    elemNextAt s a i = m := by
  obtain ⟨m', _, hm₂⟩ := segment_split h
  exact hm₂.2

theorem getLastD_append_cons {α : Type} (l₁ l₂ : List α) (a : α) (d : α) :
    (l₁ ++ a :: l₂).getLastD d = (a :: l₂).getLastD d := by
  induction l₁ generalizing d with
  | nil => rfl
  | cons x t ih =>
    rw [List.cons_append, List.getLastD_cons, ih x, List.getLastD_cons,
      List.getLastD_cons]

theorem getLastD_concat {α : Type} (l : List α) (a : α) (d : α) :
    (l ++ [a]).getLastD d = a := by
  rw [getLastD_append_cons]; rfl

theorem dropWhile_head_false {α : Type} {P : α → Bool} {l t : List α} {a : α}
    (h : l.dropWhile P = a :: t) : P a = false := by
  induction l with
  | nil => simp at h
  | cons x r ih =>
    rw [List.dropWhile_cons] at h
    by_cases hx : P x = true
    · simp [hx] at h; exact ih h
    · simp [hx] at h
      simp [← h.1, Bool.not_eq_true] at hx ⊢
      exact hx

end SegmentLemmas

/-! ## The descent loops -/

section Descent

variable [Inhabited K] [LinearOrder K] {keyOf : V → K}

/-- The inner loop of the descents walks a level-`i` segment exactly up
to the first node whose key is not below the searched key. -/
theorem advance_spec {s : SkipList V} {key : K} {i : Nat} (σ : List Nat)
    (halive : ∀ id ∈ σ, (s.arena id).isSome) (p : Ptr)
    (hseg : Segment s i (nodeNextAt s p i) σ none)
    (fuel : Nat) (hfuel : σ.length ≤ fuel) :
    advance keyOf s key i fuel p =
      ((σ.takeWhile (belowP keyOf s key)).map Ptr.elem).getLastD p ∧
    Segment s i (nodeNextAt s (advance keyOf s key i fuel p) i)
      (σ.dropWhile (belowP keyOf s key)) none := by
  induction σ generalizing p fuel with
  | nil =>
    have he : nodeNextAt s p i = none := hseg
    have hadv : advance keyOf s key i fuel p = p := by
      cases fuel with
      | zero => rfl
      | succ f => simp [advance, he]
    rw [hadv]
    exact ⟨by simp, hseg⟩
  | cons a t ih =>
    obtain ⟨he, hrest⟩ := hseg
    obtain ⟨f, rfl⟩ : ∃ f, fuel = f + 1 := by
      cases fuel with
      | zero => simp at hfuel
      | succ f => exact ⟨f, rfl⟩
    obtain ⟨e, hae⟩ := Option.isSome_iff_exists.mp (halive a (by simp))
    have hka : keyAt keyOf s a = keyOf e.value := keyAt_eq hae
    have hflen : t.length ≤ f := by simpa using hfuel
    by_cases hlt : keyOf e.value < key
    · have hP : belowP keyOf s key a = true := by simp [belowP, hka, hlt]
      have hseg' : Segment s i (nodeNextAt s (Ptr.elem a) i) t none := by
        rwa [nodeNextAt_elem]
      have hrec := ih (fun id hid => halive id (by simp [hid])) (Ptr.elem a)
        hseg' f hflen
      have hadv : advance keyOf s key i (f + 1) p =
          advance keyOf s key i f (Ptr.elem a) := by
        simp [advance, he, hae, hlt]
      constructor
      · rw [hadv, hrec.1]
        simp only [List.takeWhile_cons, hP, if_true, List.map_cons,
          List.getLastD_cons]
      · rw [hadv]
        simp only [List.dropWhile_cons, hP, if_true]
        exact hrec.2
    · have hP : belowP keyOf s key a = false := by simp [belowP, hka, hlt]
      have hadv : advance keyOf s key i (f + 1) p = p := by
        simp [advance, he, hae, hlt]
      rw [hadv]
      constructor
      · simp only [List.takeWhile_cons, hP]
        simp
      · simp only [List.dropWhile_cons, hP]
        exact ⟨he, hrest⟩

/-- `levelIds` at level 0 is the whole ghost list (every tower has
height at least 1). -/
theorem levelIds_zero {s : SkipList V} {ids : List Nat}
    (h : Represents keyOf s ids) : levelIds s ids 0 = ids := by
  rw [levelIds, List.filter_eq_self]
  intro id hid
  simpa using h.hgt_pos id hid

/-- `levelIds` at the head tower length (and above) is empty. -/
theorem levelIds_top {s : SkipList V} {ids : List Nat}
    (h : Represents keyOf s ids) {i : Nat} (hi : s.head_next.length ≤ i) :
    levelIds s ids i = [] := by
  rw [levelIds, List.filter_eq_nil_iff]
  intro id hid
  simp only [decide_eq_true_eq, not_lt]
  exact le_trans (h.hgt_le id hid) hi

/-- Restricting a level's chain to the next level up: the level-`i+1`
chain is the level-`i` chain filtered by participation in level
`i+1`. -/
theorem levelIds_succ {s : SkipList V} (ids : List Nat) (i : Nat) :
    levelIds s ids (i + 1) =
      (levelIds s ids i).filter (fun id => decide (i + 1 < heightOf s id)) := by
  rw [levelIds, levelIds, List.filter_filter]
  congr 1
  funext id
  by_cases hlt : i + 1 < heightOf s id
  · simp [hlt, lt_of_le_of_lt (Nat.le_succ i) hlt]
  · simp [hlt]

theorem levelIds_subset {s : SkipList V} {ids : List Nat} {i : Nat} :
    ∀ id ∈ levelIds s ids i, id ∈ ids := fun _ hid =>
  List.mem_of_mem_filter hid

theorem levelIds_pairwise {s : SkipList V} {ids : List Nat}
    (h : Represents keyOf s ids) (i : Nat) :
    (levelIds s ids i).Pairwise (fun a b => keyAt keyOf s a < keyAt keyOf s b) :=
  h.sorted.sublist (List.filter_sublist ids)

/-- From the descent position of any level, the remainder of that
level's chain is the part not below the searched key. -/
theorem bpred_suffix {s : SkipList V} {ids : List Nat}
    (h : Represents keyOf s ids) (key : K) {i : Nat} (hi : i < s.head_next.length) :
    Segment s i (nodeNextAt s (bpredAt keyOf s ids key i) i)
      ((levelIds s ids i).dropWhile (belowP keyOf s key)) none := by
  have hlink := h.links i hi
  have hsplit : levelIds s ids i =
      (levelIds s ids i).takeWhile (belowP keyOf s key) ++
      (levelIds s ids i).dropWhile (belowP keyOf s key) :=
    (List.takeWhile_append_dropWhile _ _).symm
  rcases List.eq_nil_or_concat ((levelIds s ids i).takeWhile (belowP keyOf s key))
    with hnil | ⟨c, a, hca⟩
  all_goals try rw [List.concat_eq_append] at hca
  · rw [hnil] at hsplit
    simp only [bpredAt, hnil, List.map_nil, List.getLastD_nil]
    rw [hsplit] at hlink
    simpa [nodeNextAt, nodeNext] using hlink
  · rw [hca] at hsplit
    rw [hsplit] at hlink
    obtain ⟨m, hm₁, hm₂⟩ := segment_split hlink
    have hma : elemNextAt s a i = m := segment_concat_exit hm₁
    simp only [bpredAt, hca, List.map_append, List.map_cons, List.map_nil]
    rw [getLastD_concat]
    rw [nodeNextAt_elem, hma]
    exact hm₂

theorem nodeNextAt_head (s : SkipList V) (i : Nat) :
    nodeNextAt s Ptr.head i = s.head_next.getD i none := rfl

theorem takeWhile_dropWhile_nil {α : Type} (P : α → Bool) (l : List α) :
    (l.dropWhile P).takeWhile P = [] := by
  cases hd : l.dropWhile P with
  | nil => rfl
  | cons a t =>
    rw [List.takeWhile_cons, dropWhile_head_false hd]
    rfl

/-- The level-below-level filtration of the descent: the nodes of the
level-`i+1` chain below the key are those of the level-`i` chain below
the key that participate in level `i+1`. -/
theorem takeWhile_levelIds_succ {s : SkipList V} {ids : List Nat}
    (h : Represents keyOf s ids) (key : K) (i : Nat) :
    (levelIds s ids (i + 1)).takeWhile (belowP keyOf s key) =
      ((levelIds s ids i).takeWhile (belowP keyOf s key)).filter
        (fun id => decide (i + 1 < heightOf s id)) := by
  rw [levelIds_succ]
  exact takeWhile_filter_comm (levelIds_pairwise h i)
    (fun a b hab hb => by
      simp only [belowP, decide_eq_true_eq] at hb ⊢
      exact lt_trans hab hb)

/-- One level of the descent: advancing at level `i` from the exit
position of level `i + 1` reaches the exit position of level `i`. -/
theorem bpred_step {s : SkipList V} {ids : List Nat}
    (h : Represents keyOf s ids) {key : K} {i : Nat}
    (hi : i < s.head_next.length) :
    advance keyOf s key i (s.size + 1) (bpredAt keyOf s ids key (i + 1)) =
      bpredAt keyOf s ids key i := by
  have hcomm := takeWhile_levelIds_succ h key i
  have halive : ∀ id ∈ levelIds s ids i, (s.arena id).isSome := fun id hid =>
    arena_isSome_of_mem h (levelIds_subset id hid)
  have hlen : (levelIds s ids i).length ≤ s.size := by
    rw [h.sizeEq]
    exact List.length_filter_le _ _
  rcases List.eq_nil_or_concat
      ((levelIds s ids (i + 1)).takeWhile (belowP keyOf s key)) with hnil | ⟨c, a, hca⟩
  · -- nothing below the key participates in level i+1: start from the head
    have hp : bpredAt keyOf s ids key (i + 1) = Ptr.head := by
      simp [bpredAt, hnil]
    rw [hp]
    have hspec := @advance_spec V K _ _ keyOf s key i (levelIds s ids i)
      halive Ptr.head (by rw [nodeNextAt_head]; exact h.links i hi)
      (s.size + 1) (le_trans hlen (Nat.le_succ _))
    rw [hspec.1]
    rfl
  · rw [List.concat_eq_append] at hca
    have hp : bpredAt keyOf s ids key (i + 1) = Ptr.elem a := by
      simp [bpredAt, hca, getLastD_concat]
    have hmem : a ∈ (levelIds s ids i).takeWhile (belowP keyOf s key) := by
      have : a ∈ (levelIds s ids (i + 1)).takeWhile (belowP keyOf s key) := by
        rw [hca]; simp
      rw [hcomm] at this
      exact List.mem_of_mem_filter this
    obtain ⟨A₁, A₂, hA⟩ := List.append_of_mem hmem
    have hLi : levelIds s ids i =
        A₁ ++ a :: (A₂ ++ (levelIds s ids i).dropWhile (belowP keyOf s key)) := by
      conv_lhs => rw [← List.takeWhile_append_dropWhile (belowP keyOf s key) (levelIds s ids i)]
      rw [hA]
      simp
    have hlink := h.links i hi
    rw [hLi] at hlink
    have hlink' : Segment s i (s.head_next.getD i none)
        ((A₁ ++ [a]) ++ (A₂ ++ (levelIds s ids i).dropWhile (belowP keyOf s key)))
        none := by
      simpa using hlink
    obtain ⟨m, hm₁, hm₂⟩ := segment_split hlink'
    have hma : elemNextAt s a i = m := segment_concat_exit hm₁
    have hallA₂ : ∀ x ∈ A₂, belowP keyOf s key x = true := by
      intro x hx
      exact List.mem_takeWhile_imp (l := levelIds s ids i) (by rw [hA]; simp [hx])
    have hseg : Segment s i (nodeNextAt s (Ptr.elem a) i)
        (A₂ ++ (levelIds s ids i).dropWhile (belowP keyOf s key)) none := by
      rw [nodeNextAt_elem, hma]; exact hm₂
    have halive' : ∀ id ∈ A₂ ++ (levelIds s ids i).dropWhile (belowP keyOf s key),
        (s.arena id).isSome := by
      intro id hid
      apply halive
      rw [hLi]
      simp only [List.mem_append, List.mem_cons] at hid ⊢
      rcases hid with hid | hid
      · exact Or.inr (Or.inr (Or.inl hid))
      · exact Or.inr (Or.inr (Or.inr hid))
    have hlen' : (A₂ ++ (levelIds s ids i).dropWhile (belowP keyOf s key)).length ≤
        s.size + 1 := by
      have h1 : A₂.length + ((levelIds s ids i).dropWhile (belowP keyOf s key)).length <
          (levelIds s ids i).length := by
        conv_rhs => rw [hLi]
        simp
        omega
      rw [List.length_append]
      omega
    have hspec := @advance_spec V K _ _ keyOf s key i _ halive' (Ptr.elem a)
      hseg (s.size + 1) hlen'
    rw [hp, hspec.1]
    have htw : (A₂ ++ (levelIds s ids i).dropWhile (belowP keyOf s key)).takeWhile
        (belowP keyOf s key) = A₂ := by
      rw [takeWhile_append_all hallA₂, takeWhile_dropWhile_nil, List.append_nil]
    rw [htw, bpredAt, hA]
    rw [List.map_append, List.map_cons, getLastD_append_cons, List.getLastD_cons]

/-- The recorded update vector of `xinsert`'s descent: starting from
the head at the top level, every level's recorded node is that level's
exit position, and the final node is the level-0 exit position. -/
theorem descendUpdate_spec {s : SkipList V} {ids : List Nat}
    (h : Represents keyOf s ids) (key : K) :
    ∀ j, j ≤ s.head_next.length →
      (descendUpdate keyOf s key j (bpredAt keyOf s ids key j)).1 =
        bpredAt keyOf s ids key 0 ∧
      (descendUpdate keyOf s key j (bpredAt keyOf s ids key j)).2.length = j ∧
      ∀ i, i < j →
        (descendUpdate keyOf s key j (bpredAt keyOf s ids key j)).2.getD i Ptr.head =
          bpredAt keyOf s ids key i := by
  intro j
  induction j with
  | zero => exact fun _ => ⟨rfl, rfl, fun i hi => by omega⟩
  | succ n ih =>
    intro hj
    have hstep : advance keyOf s key n (s.size + 1) (bpredAt keyOf s ids key (n + 1)) =
        bpredAt keyOf s ids key n := bpred_step h (by omega)
    have hrec := ih (by omega)
    refine ⟨?_, ?_, ?_⟩
    · simp only [descendUpdate, hstep]
      exact hrec.1
    · simp only [descendUpdate, hstep, List.length_append, hrec.2.1]
      rfl
    · intro i hi
      simp only [descendUpdate, hstep]
      by_cases hin : i < n
      · rw [List.getD_append _ _ _ _ (by rw [hrec.2.1]; exact hin)]
        exact hrec.2.2 i hin
      · have hieq : i = n := by omega
        subst hieq
        rw [List.getD_eq_getElem?_getD, List.getElem?_append_right (by rw [hrec.2.1])]
        simp [hrec.2.1]

/-- The head tower's length is zero exactly on the empty container. -/
theorem head_len_zero_iff {s : SkipList V} {ids : List Nat}
    (h : Represents keyOf s ids) : s.head_next.length = 0 ↔ ids = [] := by
  constructor
  · intro h0
    cases hids : ids with
    | nil => rfl
    | cons a t =>
      have h1 := h.hgt_pos a (by rw [hids]; simp)
      have h2 := h.hgt_le a (by rw [hids]; simp)
      omega
  · intro hids
    by_contra hne
    have := h.level_nonempty 0 (by omega)
    rw [hids] at this
    simp [levelIds] at this

/-- The full descent of `xinsert` on a well-formed container: the final
position is the level-0 exit position and the update vector records
every level's exit position. -/
theorem descendUpdate_full {s : SkipList V} {ids : List Nat}
    (h : Represents keyOf s ids) (key : K) :
    (descendUpdate keyOf s key s.head_next.length Ptr.head).1 =
      bpredAt keyOf s ids key 0 ∧
    (descendUpdate keyOf s key s.head_next.length Ptr.head).2.length =
      s.head_next.length ∧
    ∀ i, i < s.head_next.length →
      (descendUpdate keyOf s key s.head_next.length Ptr.head).2.getD i Ptr.head =
        bpredAt keyOf s ids key i := by
  have htop : bpredAt keyOf s ids key s.head_next.length = Ptr.head := by
    rw [bpredAt, levelIds_top h (le_refl _)]
    rfl
  have := descendUpdate_spec h key s.head_next.length (le_refl _)
  rwa [htop] at this

/-- `descend` is the update-free projection of `descendUpdate`. -/
theorem descend_eq_descendUpdate (keyOf : V → K) (s : SkipList V) (key : K) :
    ∀ j p, descend keyOf s key j p = (descendUpdate keyOf s key j p).1 := by
  intro j
  induction j with
  | zero => intro p; rfl
  | succ n ih => intro p; simp only [descend, descendUpdate]; exact ih _

/-- `xequal` decides key equality under a linear order. -/
theorem xequal_iff (a b : K) : xequal a b = true ↔ a = b := by
  simp only [xequal, Bool.and_eq_true, Bool.not_eq_true', decide_eq_false_iff_not]
  constructor
  · rintro ⟨h₁, h₂⟩
    exact le_antisymm (not_lt.mp h₂) (not_lt.mp h₁)
  · rintro rfl
    exact ⟨lt_irrefl a, lt_irrefl a⟩

/-- Splitting the ghost list at a present key: the part below the key,
the matching element, and the part above. -/
theorem split_present {s : SkipList V} {ids : List Nat}
    (h : Represents keyOf s ids) {key : K} {xid : Nat} (hx : xid ∈ ids)
    (hk : keyAt keyOf s xid = key) :
    ∃ front back, ids = front ++ xid :: back ∧
      ids.takeWhile (belowP keyOf s key) = front ∧
      ids.dropWhile (belowP keyOf s key) = xid :: back := by
  obtain ⟨front, back, hfb⟩ := List.append_of_mem hx
  refine ⟨front, back, hfb, ?_, ?_⟩
  · have hfront : ∀ a ∈ front, belowP keyOf s key a = true := by
      intro a ha
      have := h.sorted
      rw [hfb] at this
      have hrel := (List.pairwise_append.mp this).2.2 a ha xid (by simp)
      simp only [belowP, decide_eq_true_eq]
      rw [← hk]
      exact hrel
    have hxF : belowP keyOf s key xid = false := by
      simp [belowP, hk]
    rw [hfb, takeWhile_append_all hfront, List.takeWhile_cons, hxF]
    simp
  · have hfront : ∀ a ∈ front, belowP keyOf s key a = true := by
      intro a ha
      have := h.sorted
      rw [hfb] at this
      have hrel := (List.pairwise_append.mp this).2.2 a ha xid (by simp)
      simp only [belowP, decide_eq_true_eq]
      rw [← hk]
      exact hrel
    have hxF : belowP keyOf s key xid = false := by
      simp [belowP, hk]
    rw [hfb, dropWhile_append_all hfront, List.dropWhile_cons, hxF]
    simp

/-- The level-0 successor of the descent's final position is the first
node whose key is not below the searched key. -/
theorem bpred0_next {s : SkipList V} {ids : List Nat}
    (h : Represents keyOf s ids) (key : K) (hne : ids ≠ []) :
    nodeNextAt s (bpredAt keyOf s ids key 0) 0 =
      (ids.dropWhile (belowP keyOf s key)).head? := by
  have h0 : 0 < s.head_next.length := by
    rcases Nat.eq_zero_or_pos s.head_next.length with h0 | h0
    · exact absurd ((head_len_zero_iff h).mp h0) hne
    · exact h0
  have := bpred_suffix h key h0
  rw [levelIds_zero h] at this
  cases hd : ids.dropWhile (belowP keyOf s key) with
  | nil => rw [hd] at this; exact this
  | cons x t => rw [hd] at this; exact this.1

/-- The descent position is the head sentinel or a live element of the
level's chain whose key is below the searched key. -/
theorem bpred_cases {s : SkipList V} {ids : List Nat}
    (h : Represents keyOf s ids) (key : K) (i : Nat) :
    bpredAt keyOf s ids key i = Ptr.head ∨
    ∃ p, bpredAt keyOf s ids key i = Ptr.elem p ∧ p ∈ levelIds s ids i ∧
      belowP keyOf s key p = true := by
  rcases List.eq_nil_or_concat ((levelIds s ids i).takeWhile (belowP keyOf s key))
    with hnil | ⟨c, a, hca⟩
  · left; simp [bpredAt, hnil]
  · right
    rw [List.concat_eq_append] at hca
    refine ⟨a, by simp [bpredAt, hca, getLastD_concat], ?_, ?_⟩
    · exact (List.takeWhile_sublist _).subset (by rw [hca]; simp)
    · exact List.mem_takeWhile_imp (by rw [hca]; simp)

/-- Above the head tower, the descent position is the head sentinel. -/
theorem bpredAt_top {s : SkipList V} {ids : List Nat}
    (h : Represents keyOf s ids) {key : K} {i : Nat}
    (hi : s.head_next.length ≤ i) : bpredAt keyOf s ids key i = Ptr.head := by
  rw [bpredAt, levelIds_top h hi]
  rfl

/-- Inserting a key that is already present: the source's duplicate
branch fires, reporting `inserted = false`, returning an iterator whose
node is the existing element itself, and leaving the container state
(including the random stream cursor) completely unchanged. -/
theorem xinsert_duplicate {s : SkipList V} {ids : List Nat}
    (h : Represents keyOf s ids) {v : V} {xid : Nat} (hx : xid ∈ ids)
    (hk : keyAt keyOf s xid = keyOf v) (hint : Ptr) :
    xinsert keyOf s hint v = ((Ptr.elem xid, false), s) := by
  obtain ⟨front, back, hfb, htw, hdw⟩ := split_present h hx hk
  have hne : ids ≠ [] := by rw [hfb]; simp
  have hnext : nodeNextAt s (bpredAt keyOf s ids (keyOf v) 0) 0 = some xid := by
    rw [bpred0_next h _ hne, hdw]
    rfl
  obtain ⟨xe, hxe⟩ := exists_elem_of_mem h hx
  have hxkey : keyOf xe.value = keyOf v := by
    have h1 : keyAt keyOf s xid = keyOf xe.value := keyAt_eq hxe
    rw [← h1, hk]
  have hfull := descendUpdate_full h (keyOf v)
  have hnonempty : (nodeNext s (bpredAt keyOf s ids (keyOf v) 0)).isEmpty = false := by
    rcases bpred_cases h (keyOf v) 0 with hcase | ⟨p, hcase, hpmem0, _⟩
    · rw [hcase]
      have h0 : 0 < s.head_next.length := by
        rcases Nat.eq_zero_or_pos s.head_next.length with h0 | h0
        · exact absurd ((head_len_zero_iff h).mp h0) hne
        · exact h0
      simp only [nodeNext]
      rw [List.isEmpty_eq_false]
      intro hcontra
      rw [hcontra] at h0
      simp at h0
    · have hpmem := levelIds_subset p hpmem0
      obtain ⟨pe, hpe⟩ := exists_elem_of_mem h hpmem
      have hh := h.hgt_pos p hpmem
      rw [hcase]
      simp only [nodeNext, hpe]
      rw [List.isEmpty_eq_false]
      intro hcontra
      simp [heightOf, hpe, hcontra] at hh
  simp only [xinsert, hfull.1, hnonempty, Bool.false_eq_true, if_false, hnext,
    hxe, hxkey, xequal_iff]
  simp

end Descent

/-! ## Pointwise effect of the elementary mutations -/

section Mutations

theorem nodeNext_setNextAt_ne {s : SkipList V} {p q : Ptr} (h : q ≠ p)
    (i : Nat) (v : Option Nat) : nodeNext (setNextAt s p i v) q = nodeNext s q := by
  cases p with
  | head => cases q with
    | head => exact absurd rfl h
    | end_ => rfl
    | elem id => rfl
  | end_ => rfl
  | elem id =>
    cases q with
    | head => rfl
    | end_ => rfl
    | elem id' =>
      have hne : id' ≠ id := fun hc => h (by rw [hc])
      simp [setNextAt, nodeNext, hne]

theorem nodeNext_setNextAt_self {s : SkipList V} {p : Ptr} (h : p ≠ Ptr.end_)
    (i : Nat) (v : Option Nat) :
    nodeNext (setNextAt s p i v) p = (nodeNext s p).set i v := by
  cases p with
  | head => rfl
  | end_ => exact absurd rfl h
  | elem id =>
    cases he : s.arena id with
    | none => simp [setNextAt, nodeNext, he]
    | some e => simp [setNextAt, nodeNext, he]

theorem arena_setNextAt_isSome (s : SkipList V) (p : Ptr) (i : Nat)
    (v : Option Nat) (q : Nat) :
    ((setNextAt s p i v).arena q).isSome = (s.arena q).isSome := by
  cases p with
  | head => rfl
  | end_ => rfl
  | elem id =>
    simp only [setNextAt]
    by_cases hq : q = id
    · subst hq; cases s.arena q <;> simp
    · simp [hq]

theorem arena_setNextAt_value (s : SkipList V) (p : Ptr) (i : Nat)
    (v : Option Nat) (q : Nat) :
    valueAt (setNextAt s p i v) q = valueAt s q := by
  cases p with
  | head => rfl
  | end_ => rfl
  | elem id =>
    simp only [setNextAt, valueAt]
    by_cases hq : q = id
    · subst hq; cases s.arena q <;> simp
    · simp [hq]

theorem arena_setNextAt_prev (s : SkipList V) (p : Ptr) (i : Nat)
    (v : Option Nat) (q : Nat) :
    ((setNextAt s p i v).arena q).bind (·.previous) =
      (s.arena q).bind (·.previous) := by
  cases p with
  | head => rfl
  | end_ => rfl
  | elem id =>
    simp only [setNextAt]
    by_cases hq : q = id
    · subst hq; cases s.arena q <;> simp
    · simp [hq]

theorem nodeNext_length_setNextAt (s : SkipList V) (p q : Ptr) (i : Nat)
    (v : Option Nat) :
    (nodeNext (setNextAt s p i v) q).length = (nodeNext s q).length := by
  by_cases hq : q = p
  · subst hq
    cases q with
    | head => simp [setNextAt, nodeNext]
    | end_ => rfl
    | elem id =>
      cases he : s.arena id with
      | none => simp [setNextAt, nodeNext, he]
      | some e => simp [setNextAt, nodeNext, he]
  · rw [nodeNext_setNextAt_ne hq]

theorem setNextAt_misc (s : SkipList V) (p : Ptr) (i : Nat) (v : Option Nat) :
    (setNextAt s p i v).tail = s.tail ∧ (setNextAt s p i v).size = s.size ∧
    (setNextAt s p i v).nextId = s.nextId ∧ (setNextAt s p i v).steps = s.steps ∧
    (setNextAt s p i v).engine = s.engine := by
  cases p <;> exact ⟨rfl, rfl, rfl, rfl, rfl⟩

theorem nodeNext_pushNext_ne {s : SkipList V} {id : Nat} {q : Ptr}
    (h : q ≠ Ptr.elem id) (v : Option Nat) :
    nodeNext (pushNext s id v) q = nodeNext s q := by
  cases q with
  | head => rfl
  | end_ => rfl
  | elem id' =>
    have hne : id' ≠ id := fun hc => h (by rw [hc])
    simp [pushNext, nodeNext, hne]

theorem nodeNext_pushNext_self {s : SkipList V} {id : Nat} {e : Elem V}
    (h : s.arena id = some e) (v : Option Nat) :
    nodeNext (pushNext s id v) (Ptr.elem id) = nodeNext s (Ptr.elem id) ++ [v] := by
  simp [pushNext, nodeNext, h]

theorem arena_pushNext_isSome (s : SkipList V) (id : Nat) (v : Option Nat)
    (q : Nat) : ((pushNext s id v).arena q).isSome = (s.arena q).isSome := by
  simp only [pushNext]
  by_cases hq : q = id
  · subst hq; cases s.arena q <;> simp
  · simp [hq]

theorem arena_pushNext_value (s : SkipList V) (id : Nat) (v : Option Nat)
    (q : Nat) : valueAt (pushNext s id v) q = valueAt s q := by
  simp only [pushNext, valueAt]
  by_cases hq : q = id
  · subst hq; cases s.arena q <;> simp
  · simp [hq]

theorem arena_pushNext_prev (s : SkipList V) (id : Nat) (v : Option Nat)
    (q : Nat) :
    ((pushNext s id v).arena q).bind (·.previous) =
      (s.arena q).bind (·.previous) := by
  simp only [pushNext]
  by_cases hq : q = id
  · subst hq; cases s.arena q <;> simp
  · simp [hq]

theorem pushNext_misc (s : SkipList V) (id : Nat) (v : Option Nat) :
    (pushNext s id v).head_next = s.head_next ∧ (pushNext s id v).tail = s.tail ∧
    (pushNext s id v).size = s.size ∧ (pushNext s id v).nextId = s.nextId ∧
    (pushNext s id v).steps = s.steps ∧ (pushNext s id v).engine = s.engine :=
  ⟨rfl, rfl, rfl, rfl, rfl, rfl⟩

theorem nodeNext_setPrevious (s : SkipList V) (id : Nat) (p : Option Ptr)
    (q : Ptr) : nodeNext (setPrevious s id p) q = nodeNext s q := by
  cases q with
  | head => rfl
  | end_ => rfl
  | elem id' =>
    simp only [setPrevious, nodeNext]
    by_cases hq : id' = id
    · subst hq; cases s.arena id' <;> simp
    · simp [hq]

theorem arena_setPrevious_isSome (s : SkipList V) (id : Nat) (p : Option Ptr)
    (q : Nat) : ((setPrevious s id p).arena q).isSome = (s.arena q).isSome := by
  simp only [setPrevious]
  by_cases hq : q = id
  · subst hq; cases s.arena q <;> simp
  · simp [hq]

theorem arena_setPrevious_value (s : SkipList V) (id : Nat) (p : Option Ptr)
    (q : Nat) : valueAt (setPrevious s id p) q = valueAt s q := by
  simp only [setPrevious, valueAt]
  by_cases hq : q = id
  · subst hq; cases s.arena q <;> simp
  · simp [hq]

theorem arena_setPrevious_prev_ne {s : SkipList V} {id q : Nat} (h : q ≠ id)
    (p : Option Ptr) :
    ((setPrevious s id p).arena q).bind (·.previous) =
      (s.arena q).bind (·.previous) := by
  simp [setPrevious, h]

theorem arena_setPrevious_prev_self {s : SkipList V} {id : Nat} {e : Elem V}
    (h : s.arena id = some e) (p : Option Ptr) :
    ((setPrevious s id p).arena id).bind (·.previous) = p := by
  simp only [setPrevious]
  simp [h]

theorem setPrevious_misc (s : SkipList V) (id : Nat) (p : Option Ptr) :
    (setPrevious s id p).head_next = s.head_next ∧
    (setPrevious s id p).tail = s.tail ∧ (setPrevious s id p).size = s.size ∧
    (setPrevious s id p).nextId = s.nextId ∧
    (setPrevious s id p).steps = s.steps ∧
    (setPrevious s id p).engine = s.engine :=
  ⟨rfl, rfl, rfl, rfl, rfl, rfl⟩

theorem heightOf_eq_nodeNext_length (s : SkipList V) (id : Nat) :
    heightOf s id = (nodeNext s (Ptr.elem id)).length := by
  cases h : s.arena id <;> simp [heightOf, nodeNext, h]

/-- Two states whose level-`i` pointers agree along a run carry the
same segment. -/
theorem segment_congr {s t : SkipList V} {i : Nat} {e x : Option Nat}
    {l : List Nat} (hpt : ∀ a ∈ l, elemNextAt t a i = elemNextAt s a i)
    (h : Segment s i e l x) : Segment t i e l x := by
  induction l generalizing e with
  | nil => exact h
  | cons a r ih =>
    refine ⟨h.1, ?_⟩
    rw [hpt a (by simp)]
    exact ih (fun b hb => hpt b (by simp [hb])) h.2

theorem prevIds_append {s : SkipList V} {p : Ptr} {l₁ l₂ : List Nat} :
    PrevIds s p (l₁ ++ l₂) ↔
      PrevIds s p l₁ ∧ PrevIds s ((l₁.map Ptr.elem).getLastD p) l₂ := by
  induction l₁ generalizing p with
  | nil => simp [PrevIds]
  | cons a r ih =>
    constructor
    · rintro ⟨h1, h2⟩
      have h3 := ih.mp h2
      refine ⟨⟨h1, h3.1⟩, ?_⟩
      rw [List.map_cons, List.getLastD_cons]
      exact h3.2
    · rintro ⟨⟨h1, h2⟩, h3⟩
      rw [List.map_cons, List.getLastD_cons] at h3
      exact ⟨h1, ih.mpr ⟨h2, h3⟩⟩

/-- Two states whose backward pointers agree along a run carry the same
`PrevIds`. -/
theorem prevIds_congr {s t : SkipList V} {p : Ptr} {l : List Nat}
    (hpt : ∀ a ∈ l, nodePrev t (Ptr.elem a) = nodePrev s (Ptr.elem a))
    (h : PrevIds s p l) : PrevIds t p l := by
  induction l generalizing p with
  | nil => trivial
  | cons a r ih =>
    refine ⟨by rw [hpt a (by simp)]; exact h.1, ?_⟩
    exact ih (fun b hb => hpt b (by simp [hb])) h.2

theorem getD_set_self {α : Type} {l : List α} {i : Nat} (h : i < l.length)
    (v d : α) : (l.set i v).getD i d = v := by
  rw [List.getD_eq_getElem?_getD, List.getElem?_set]
  simp [h]

theorem getD_set_ne {α : Type} (l : List α) {i j : Nat} (h : i ≠ j)
    (v d : α) : (l.set i v).getD j d = l.getD j d := by
  rw [List.getD_eq_getElem?_getD, List.getElem?_set]
  simp [h, List.getD_eq_getElem?_getD]

/-- The combined effect of the splicing loop of `xinsert`, from level
`i` for `rem` more levels: every recorded predecessor's pointer at its
level is redirected to the new node, the new node's tower receives the
old successors in level order, and every other observable of the state
is untouched. -/
theorem spliceLoop_spec (nid : Nat) (upd : List Ptr) :
    ∀ rem i (s : SkipList V),
    (∀ j, i ≤ j → j < i + rem → upd.getD j Ptr.head ≠ Ptr.elem nid) →
    (∀ j, i ≤ j → j < i + rem → upd.getD j Ptr.head ≠ Ptr.end_) →
    (∀ j, i ≤ j → j < i + rem → j < (nodeNext s (upd.getD j Ptr.head)).length) →
    (s.arena nid).isSome →
    (∀ p i', p ≠ Ptr.elem nid →
      nodeNextAt (spliceLoop nid upd i rem s) p i' =
        if i ≤ i' ∧ i' < i + rem ∧ upd.getD i' Ptr.head = p then some nid
        else nodeNextAt s p i') ∧
    nodeNext (spliceLoop nid upd i rem s) (Ptr.elem nid) =
      nodeNext s (Ptr.elem nid) ++
        (List.range' i rem).map (fun j => nodeNextAt s (upd.getD j Ptr.head) j) ∧
    (∀ q, ((spliceLoop nid upd i rem s).arena q).isSome = (s.arena q).isSome) ∧
    (∀ q, valueAt (spliceLoop nid upd i rem s) q = valueAt s q) ∧
    (∀ q, ((spliceLoop nid upd i rem s).arena q).bind (·.previous) =
      (s.arena q).bind (·.previous)) ∧
    (∀ p, p ≠ Ptr.elem nid →
      (nodeNext (spliceLoop nid upd i rem s) p).length = (nodeNext s p).length) ∧
    (spliceLoop nid upd i rem s).tail = s.tail ∧
    (spliceLoop nid upd i rem s).size = s.size ∧
    (spliceLoop nid upd i rem s).nextId = s.nextId ∧
    (spliceLoop nid upd i rem s).steps = s.steps ∧
    (spliceLoop nid upd i rem s).engine = s.engine := by
  intro rem
  induction rem with
  | zero =>
    intro i s _ _ _ _
    refine ⟨?_, by simp [spliceLoop], fun q => rfl, fun q => rfl, fun q => rfl,
      fun p _ => rfl, rfl, rfl, rfl, rfl, rfl⟩
    intro p i' _
    have hfalse : ¬ (i ≤ i' ∧ i' < i + 0 ∧ upd.getD i' Ptr.head = p) :=
      fun hc => by omega
    exact (if_neg hfalse).symm
  | succ rem ih =>
    intro i s hno hend hrange hnid
    have hp₀nid : upd.getD i Ptr.head ≠ Ptr.elem nid := hno i (le_refl i) (by omega)
    have hp₀end : upd.getD i Ptr.head ≠ Ptr.end_ := hend i (le_refl i) (by omega)
    have hleni : i < (nodeNext s (upd.getD i Ptr.head)).length :=
      hrange i (le_refl i) (by omega)
    obtain ⟨en, hen⟩ := Option.isSome_iff_exists.mp hnid
    set p₀ := upd.getD i Ptr.head with hp₀
    set succ := nodeNextAt s p₀ i with hsucc
    set s' := setNextAt (pushNext s nid succ) p₀ i (some nid) with hs'
    have hloop : spliceLoop nid upd i (rem + 1) s = spliceLoop nid upd (i + 1) rem s' := by
      simp only [spliceLoop]
    have f1 : ∀ p, p ≠ Ptr.elem nid →
        nodeNext s' p = if p = p₀ then (nodeNext s p).set i (some nid)
          else nodeNext s p := by
      intro p hp
      by_cases hpp : p = p₀
      · subst hpp
        rw [if_pos rfl, hs', nodeNext_setNextAt_self hp₀end,
          nodeNext_pushNext_ne hp]
      · rw [if_neg hpp, hs', nodeNext_setNextAt_ne hpp, nodeNext_pushNext_ne hp]
    have f2 : nodeNext s' (Ptr.elem nid) = nodeNext s (Ptr.elem nid) ++ [succ] := by
      rw [hs', nodeNext_setNextAt_ne (Ne.symm hp₀nid), nodeNext_pushNext_self hen]
    have f3 : ∀ p, p ≠ Ptr.elem nid →
        (nodeNext s' p).length = (nodeNext s p).length := by
      intro p hp
      rw [f1 p hp]
      by_cases hpp : p = p₀ <;> simp [hpp]
    have f4 : ∀ p i', p ≠ Ptr.elem nid → ¬ (p = p₀ ∧ i' = i) →
        nodeNextAt s' p i' = nodeNextAt s p i' := by
      intro p i' hp hpi
      rw [nodeNextAt, f1 p hp, nodeNextAt]
      by_cases hpp : p = p₀
      · have : i' ≠ i := fun hc => hpi ⟨hpp, hc⟩
        rw [if_pos hpp, getD_set_ne _ (Ne.symm this), hpp]
      · rw [if_neg hpp]
    have f5 : nodeNextAt s' p₀ i = some nid := by
      rw [nodeNextAt, f1 p₀ hp₀nid, if_pos rfl, getD_set_self hleni]
    have hno' : ∀ j, i + 1 ≤ j → j < i + 1 + rem → upd.getD j Ptr.head ≠ Ptr.elem nid :=
      fun j h₁ h₂ => hno j (by omega) (by omega)
    have hend' : ∀ j, i + 1 ≤ j → j < i + 1 + rem → upd.getD j Ptr.head ≠ Ptr.end_ :=
      fun j h₁ h₂ => hend j (by omega) (by omega)
    have hrange' : ∀ j, i + 1 ≤ j → j < i + 1 + rem →
        j < (nodeNext s' (upd.getD j Ptr.head)).length := by
      intro j h₁ h₂
      rw [f3 _ (hno' j h₁ h₂)]
      exact hrange j (by omega) (by omega)
    have hnid' : (s'.arena nid).isSome := by
      rw [hs', arena_setNextAt_isSome, arena_pushNext_isSome]
      exact hnid
    obtain ⟨c1, c2, c3, c4, c5, c6, c7⟩ := ih (i + 1) s' hno' hend' hrange' hnid'
    refine ⟨?_, ?_, ?_, ?_, ?_, ?_, ?_⟩
    · intro p i' hp
      rw [hloop, c1 p i' hp]
      by_cases hup : i + 1 ≤ i' ∧ i' < i + 1 + rem ∧ upd.getD i' Ptr.head = p
      · rw [if_pos hup, if_pos ⟨by omega, by omega, hup.2.2⟩]
      · rw [if_neg hup]
        by_cases hcur : p = p₀ ∧ i' = i
        · rw [hcur.2, hcur.1, f5, if_pos ⟨le_refl i, by omega, hp₀.symm⟩]
        · rw [f4 p i' hp hcur]
          have : ¬ (i ≤ i' ∧ i' < i + (rem + 1) ∧ upd.getD i' Ptr.head = p) := by
            intro ⟨ha, hb, hc⟩
            rcases Nat.lt_or_ge i' (i + 1) with hlt | hge
            · have : i' = i := by omega
              exact hcur ⟨by rw [← hc, this], this⟩
            · exact hup ⟨hge, by omega, hc⟩
          rw [if_neg this]
    · rw [hloop, c2, f2]
      have hmap : (List.range' (i + 1) rem).map
          (fun j => nodeNextAt s' (upd.getD j Ptr.head) j) =
          (List.range' (i + 1) rem).map
          (fun j => nodeNextAt s (upd.getD j Ptr.head) j) := by
        apply List.map_congr_left
        intro j hj
        have hjr := List.mem_range'_1.mp hj
        exact f4 _ _ (hno' j hjr.1 hjr.2) (fun hc => by omega)
      rw [hmap, List.range'_succ, List.map_cons, List.append_assoc,
        List.singleton_append]
    · intro q
      rw [hloop, c3 q, hs', arena_setNextAt_isSome, arena_pushNext_isSome]
    · intro q
      rw [hloop, c4 q, hs', arena_setNextAt_value, arena_pushNext_value]
    · intro q
      rw [hloop, c5 q, hs', arena_setNextAt_prev, arena_pushNext_prev]
    · intro p hp
      rw [hloop, c6 p hp, f3 p hp]
    · rw [hloop]
      have m1 : s'.tail = s.tail := by
        rw [hs', (setNextAt_misc _ _ _ _).1, (pushNext_misc _ _ _).2.1]
      have m2 : s'.size = s.size := by
        rw [hs', (setNextAt_misc _ _ _ _).2.1, (pushNext_misc _ _ _).2.2.1]
      have m3 : s'.nextId = s.nextId := by
        rw [hs', (setNextAt_misc _ _ _ _).2.2.1, (pushNext_misc _ _ _).2.2.2.1]
      have m4 : s'.steps = s.steps := by
        rw [hs', (setNextAt_misc _ _ _ _).2.2.2.1, (pushNext_misc _ _ _).2.2.2.2.1]
      have m5 : s'.engine = s.engine := by
        rw [hs', (setNextAt_misc _ _ _ _).2.2.2.2, (pushNext_misc _ _ _).2.2.2.2.2]
      exact ⟨c7.1.trans m1, c7.2.1.trans m2, c7.2.2.1.trans m3,
        c7.2.2.2.1.trans m4, c7.2.2.2.2.trans m5⟩

end Mutations

/-! ## The non-duplicate insertion -/

section FreshInsert

variable [Inhabited K] [LinearOrder K] {keyOf : V → K}

theorem getD_append_dflt {α : Type} (l : List α) (k j : Nat) (d : α) :
    (l ++ List.replicate k d).getD j d = l.getD j d := by
  by_cases hj : j < l.length
  · exact List.getD_append _ _ _ _ hj
  · rw [List.getD_eq_getElem?_getD, List.getD_eq_getElem?_getD,
      List.getElem?_append_right (by omega)]
    have h1 : l[j]? = none := List.getElem?_eq_none (by omega)
    rw [h1]
    cases hr : (List.replicate k d)[j - l.length]? with
    | none => rfl
    | some x =>
      have := List.getElem?_mem hr
      rw [List.eq_of_mem_replicate this]
      rfl

theorem elemNextAt_congr {s t : SkipList V} {q : Nat}
    (h : t.arena q = s.arena q) (j : Nat) :
    elemNextAt t q j = elemNextAt s q j := by
  simp only [elemNextAt, h]

theorem heightOf_congr {s t : SkipList V} {q : Nat}
    (h : t.arena q = s.arena q) : heightOf t q = heightOf s q := by
  simp only [heightOf, h]

theorem nodeNext_elem_congr {s t : SkipList V} {q : Nat}
    (h : t.arena q = s.arena q) :
    nodeNext t (Ptr.elem q) = nodeNext s (Ptr.elem q) := by
  simp only [nodeNext, h]

/-- When the key is absent, `xinsert` takes the non-duplicate branch. -/
theorem xinsert_absent_eq {s : SkipList V} {ids : List Nat}
    (h : Represents keyOf s ids) {v : V}
    (habs : ∀ id ∈ ids, keyAt keyOf s id ≠ keyOf v) (hint : Ptr) :
    xinsert keyOf s hint v =
      xinsertFresh s
        (descendUpdate keyOf s (keyOf v) s.head_next.length Ptr.head).2 v := by
  have hfull := descendUpdate_full h (keyOf v)
  by_cases hemp : (nodeNext s (bpredAt keyOf s ids (keyOf v) 0)).isEmpty
  · simp only [xinsert, hfull.1, hemp, if_true]
  · rw [Bool.not_eq_true] at hemp
    have hne : ids ≠ [] := by
      intro hc
      subst hc
      have h0 : s.head_next.length = 0 := (head_len_zero_iff h).mpr rfl
      have hq : bpredAt keyOf s ([] : List Nat) (keyOf v) 0 = Ptr.head := by
        simp [bpredAt, levelIds]
      rw [hq] at hemp
      simp only [nodeNext] at hemp
      rw [List.isEmpty_eq_false] at hemp
      exact hemp (List.length_eq_zero.mp h0)
    cases hnx : nodeNextAt s (bpredAt keyOf s ids (keyOf v) 0) 0 with
    | none => simp only [xinsert, hfull.1, hemp, Bool.false_eq_true, if_false, hnx]
    | some x₀ =>
      have hx₀ : (ids.dropWhile (belowP keyOf s (keyOf v))).head? = some x₀ := by
        rw [← bpred0_next h _ hne]
        exact hnx
      have hx₀mem : x₀ ∈ ids := by
        have : x₀ ∈ ids.dropWhile (belowP keyOf s (keyOf v)) :=
          List.mem_of_mem_head? hx₀
        exact (List.dropWhile_sublist _).subset this
      obtain ⟨e, he⟩ := exists_elem_of_mem h hx₀mem
      have hkey : keyOf e.value ≠ keyOf v := by
        have h1 : keyAt keyOf s x₀ = keyOf e.value := keyAt_eq he
        rw [← h1]
        exact habs x₀ hx₀mem
      have hxe : xequal (keyOf e.value) (keyOf v) = false := by
        rw [← Bool.not_eq_true, xequal_iff]
        exact hkey
      simp only [xinsert, hfull.1, hemp, Bool.false_eq_true, if_false, hnx, he,
        hxe]

/-- The observable effect of the non-duplicate branch on the container
state, given a well-formed container, an update vector recording the
descent's per-level exit positions, and a positive drawn height: the
returned iterator tracks the level-0 exit position with
`inserted = true`; the fresh node receives the old successors as its
tower, the old predecessors point at it, its backward pointer names the
level-0 exit position and its level-0 successor's backward pointer
names it; everything else is untouched, the head tower grows to the
drawn height if needed, and the tail moves to the fresh node exactly
when it became the last element. -/
theorem xinsertFresh_facts {s : SkipList V} {ids : List Nat}
    (h : Represents keyOf s ids) (v : V) {upd0 : List Ptr}
    (hlen0 : upd0.length = s.head_next.length)
    (hupd0 : ∀ i, i < s.head_next.length →
      upd0.getD i Ptr.head = bpredAt keyOf s ids (keyOf v) i)
    (hlv : 1 ≤ next_level (s.engine s.steps)) :
    (xinsertFresh s upd0 v).1 = (bpredAt keyOf s ids (keyOf v) 0, true) ∧
    (∀ p i', p ≠ Ptr.elem s.nextId →
      nodeNextAt (xinsertFresh s upd0 v).2 p i' =
        if i' < next_level (s.engine s.steps) ∧
            bpredAt keyOf s ids (keyOf v) i' = p then some s.nextId
        else nodeNextAt s p i') ∧
    nodeNext (xinsertFresh s upd0 v).2 (Ptr.elem s.nextId) =
      (List.range' 0 (next_level (s.engine s.steps))).map
        (fun j => nodeNextAt s (bpredAt keyOf s ids (keyOf v) j) j) ∧
    (∀ q, q ≠ s.nextId →
      ((xinsertFresh s upd0 v).2.arena q).isSome = (s.arena q).isSome) ∧
    ((xinsertFresh s upd0 v).2.arena s.nextId).isSome ∧
    (∀ q, q ≠ s.nextId → valueAt (xinsertFresh s upd0 v).2 q = valueAt s q) ∧
    valueAt (xinsertFresh s upd0 v).2 s.nextId = some v ∧
    (∀ q, q ≠ s.nextId →
      nodeNextAt s (bpredAt keyOf s ids (keyOf v) 0) 0 ≠ some q →
      ((xinsertFresh s upd0 v).2.arena q).bind (·.previous) =
        (s.arena q).bind (·.previous)) ∧
    ((xinsertFresh s upd0 v).2.arena s.nextId).bind (·.previous) =
      some (bpredAt keyOf s ids (keyOf v) 0) ∧
    (∀ sid, nodeNextAt s (bpredAt keyOf s ids (keyOf v) 0) 0 = some sid →
      sid ≠ s.nextId →
      ((xinsertFresh s upd0 v).2.arena sid).bind (·.previous) =
        some (Ptr.elem s.nextId)) ∧
    (∀ q, q ≠ s.nextId → heightOf (xinsertFresh s upd0 v).2 q = heightOf s q) ∧
    heightOf (xinsertFresh s upd0 v).2 s.nextId = next_level (s.engine s.steps) ∧
    (xinsertFresh s upd0 v).2.head_next.length =
      max s.head_next.length (next_level (s.engine s.steps)) ∧
    (xinsertFresh s upd0 v).2.tail =
      (if s.tail = Ptr.head ∨ bpredAt keyOf s ids (keyOf v) 0 = s.tail then
        Ptr.elem s.nextId else s.tail) ∧
    (xinsertFresh s upd0 v).2.size = s.size + 1 ∧
    (xinsertFresh s upd0 v).2.nextId = s.nextId + 1 ∧
    (xinsertFresh s upd0 v).2.steps = s.steps + 1 ∧
    (xinsertFresh s upd0 v).2.engine = s.engine := by
  have hfresh : ∀ p ∈ ids, p < s.nextId := h.fresh
  set lv := next_level (s.engine s.steps) with hlvd
  set nid := s.nextId with hnidd
  set q₀ := bpredAt keyOf s ids (keyOf v) 0 with hq₀d
  set upd := upd0 ++ List.replicate (lv - s.head_next.length) Ptr.head with hupdd
  set s2 : SkipList V :=
    { arena := fun j => if j = nid then some ⟨v, [], none⟩ else s.arena j,
      nextId := nid + 1,
      head_next := s.head_next ++ List.replicate (lv - s.head_next.length) none,
      tail := s.tail,
      size := s.size,
      engine := s.engine,
      steps := s.steps + 1 } with hs2d
  set s3 := spliceLoop nid upd 0 lv s2 with hs3d
  -- the whole branch, written out
  have hupdAll : ∀ i, upd.getD i Ptr.head = bpredAt keyOf s ids (keyOf v) i := by
    intro i
    by_cases hi : i < s.head_next.length
    · rw [hupdd, List.getD_append _ _ _ _ (by rw [hlen0]; exact hi)]
      exact hupd0 i hi
    · push_neg at hi
      rw [hupdd, getD_append_dflt, bpredAt_top h hi]
      rw [List.getD_eq_getElem?_getD, List.getElem?_eq_none (by omega)]
      rfl
  have hbpne : ∀ j, bpredAt keyOf s ids (keyOf v) j ≠ Ptr.elem nid ∧
      bpredAt keyOf s ids (keyOf v) j ≠ Ptr.end_ := by
    intro j
    rcases bpred_cases h (keyOf v) j with hc | ⟨p, hc, hpl, _⟩
    · rw [hc]
      exact ⟨fun hx => Ptr.noConfusion hx, fun hx => Ptr.noConfusion hx⟩
    · rw [hc]
      refine ⟨fun hx => ?_, fun hx => Ptr.noConfusion hx⟩
      have hp := hfresh p (levelIds_subset p hpl)
      have := Ptr.elem.inj hx
      omega
  have hs2arena : ∀ p, p ≠ nid → s2.arena p = s.arena p := by
    intro p hp
    rw [hs2d]
    simp [hp]
  have hs2nn : ∀ p, p ≠ Ptr.elem nid → ∀ j, nodeNextAt s2 p j = nodeNextAt s p j := by
    intro p hp j
    cases p with
    | head =>
      show (s2.head_next).getD j none = (s.head_next).getD j none
      rw [hs2d]
      exact getD_append_dflt _ _ _ _
    | end_ => rfl
    | elem q =>
      rw [nodeNextAt_elem, nodeNextAt_elem]
      exact elemNextAt_congr (hs2arena q (fun hc => hp (by rw [hc]))) j
  have hno : ∀ j, 0 ≤ j → j < 0 + lv → upd.getD j Ptr.head ≠ Ptr.elem nid := by
    intro j _ _
    rw [hupdAll j]
    exact (hbpne j).1
  have hend : ∀ j, 0 ≤ j → j < 0 + lv → upd.getD j Ptr.head ≠ Ptr.end_ := by
    intro j _ _
    rw [hupdAll j]
    exact (hbpne j).2
  have hs2hl : s2.head_next.length = max s.head_next.length lv := by
    rw [hs2d]
    simp only [List.length_append, List.length_replicate]
    omega
  have hrange : ∀ j, 0 ≤ j → j < 0 + lv →
      j < (nodeNext s2 (upd.getD j Ptr.head)).length := by
    intro j _ hj
    rw [hupdAll j]
    rcases bpred_cases h (keyOf v) j with hc | ⟨p, hc, hpl, _⟩
    · rw [hc]
      show j < s2.head_next.length
      rw [hs2hl]
      omega
    · rw [hc]
      have hpmem := levelIds_subset p hpl
      have hph : j < heightOf s p := by
        have := List.of_mem_filter hpl
        simpa using this
      have hpne : p ≠ nid := by
        have := hfresh p hpmem
        omega
      rw [← heightOf_eq_nodeNext_length]
      have : heightOf s2 p = heightOf s p := heightOf_congr (hs2arena p hpne)
      omega
  have hnid2 : (s2.arena nid).isSome := by
    rw [hs2d]
    simp
  obtain ⟨c1, c2, c3, c4, c5, c6, c7⟩ :=
    spliceLoop_spec nid upd lv 0 s2 hno hend hrange hnid2
  have hs2nid : s2.arena nid = some ⟨v, [], none⟩ := by
    rw [hs2d]
    simp
  have hc2' : nodeNext s3 (Ptr.elem nid) =
      (List.range' 0 lv).map (fun j => nodeNextAt s (bpredAt keyOf s ids (keyOf v) j) j) := by
    rw [hs3d, c2]
    have h1 : nodeNext s2 (Ptr.elem nid) = [] := by
      simp [nodeNext, hs2nid]
    rw [h1, List.nil_append]
    apply List.map_congr_left
    intro j hj
    rw [hupdAll j, hs2nn _ (hbpne j).1 j]
  have hsucc0 : nodeNextAt s3 (Ptr.elem nid) 0 = nodeNextAt s q₀ 0 := by
    rw [nodeNextAt, hc2']
    conv_lhs => rw [show lv = (lv - 1) + 1 from by omega]
    rw [List.range'_succ, List.map_cons]
    rfl
  -- the fresh node's state inside s3
  have hs3nid : s3.arena nid =
      some ⟨v, (List.range' 0 lv).map
        (fun j => nodeNextAt s (bpredAt keyOf s ids (keyOf v) j) j), none⟩ := by
    have hsome : (s3.arena nid).isSome := by
      rw [hs3d, c3 nid, hs2nid]
      rfl
    obtain ⟨e, he⟩ := Option.isSome_iff_exists.mp hsome
    have hval : e.value = v := by
      have h1 : valueAt s3 nid = some v := by
        rw [valueAt, hs3d]
        rw [show (spliceLoop nid upd 0 lv s2).arena nid = s3.arena nid from rfl, he]
        have h2 := c4 nid
        rw [valueAt, valueAt, hs2nid] at h2
        rw [show (spliceLoop nid upd 0 lv s2).arena nid = s3.arena nid from rfl, he] at h2
        simpa using h2
      rw [valueAt, he] at h1
      simpa using h1
    have hprev : e.previous = none := by
      have h1 := c5 nid
      rw [hs2nid] at h1
      rw [show (spliceLoop nid upd 0 lv s2).arena nid = s3.arena nid from rfl, he] at h1
      simpa using h1
    have hnext : e.next = (List.range' 0 lv).map
        (fun j => nodeNextAt s (bpredAt keyOf s ids (keyOf v) j) j) := by
      have h1 : nodeNext s3 (Ptr.elem nid) = e.next := by
        simp [nodeNext, he]
      rw [← h1, hc2']
    rw [he]
    cases e with
    | mk ev en ep =>
      have h1 : ev = v := hval
      have h2 : ep = none := hprev
      have h3 : en = (List.range' 0 lv).map
          (fun j => nodeNextAt s (bpredAt keyOf s ids (keyOf v) j) j) := hnext
      rw [h1, h2, h3]
  -- the assembly states s4, s5, s6 and the final record
  set s4 := (match nodeNextAt s3 (Ptr.elem nid) 0 with
    | some sid => setPrevious s3 sid (some (Ptr.elem nid))
    | none => s3) with hs4d
  set s5 := setPrevious s4 nid (some (upd.getD 0 Ptr.head)) with hs5d
  set s6 := (if s5.tail = Ptr.head ∨ (s5.arena nid).bind (·.previous) = some s5.tail
      then { s5 with tail := Ptr.elem nid } else s5) with hs6d
  have hxf : xinsertFresh s upd0 v =
      ((upd.getD 0 Ptr.head, true), { s6 with size := s6.size + 1 }) := rfl
  -- facts through s4
  have f_nn4 : ∀ p, nodeNext s4 p = nodeNext s3 p := by
    intro p
    rw [hs4d, hsucc0]
    cases hsv : nodeNextAt s q₀ 0 with
    | none => rfl
    | some sid => exact nodeNext_setPrevious s3 sid _ p
  have f_some4 : ∀ q, (s4.arena q).isSome = (s3.arena q).isSome := by
    intro q
    rw [hs4d, hsucc0]
    cases hsv : nodeNextAt s q₀ 0 with
    | none => rfl
    | some sid => exact arena_setPrevious_isSome s3 sid _ q
  have f_val4 : ∀ q, valueAt s4 q = valueAt s3 q := by
    intro q
    rw [hs4d, hsucc0]
    cases hsv : nodeNextAt s q₀ 0 with
    | none => rfl
    | some sid => exact arena_setPrevious_value s3 sid _ q
  have f_prev4_other : ∀ q, nodeNextAt s q₀ 0 ≠ some q →
      (s4.arena q).bind (·.previous) = (s3.arena q).bind (·.previous) := by
    intro q hq
    rw [hs4d, hsucc0]
    cases hsv : nodeNextAt s q₀ 0 with
    | none => rfl
    | some sid =>
      have hqs : q ≠ sid := fun hc => hq (by rw [hc, ← hsv])
      exact arena_setPrevious_prev_ne hqs _
  have f_misc4 : s4.head_next = s3.head_next ∧ s4.tail = s3.tail ∧
      s4.size = s3.size ∧ s4.nextId = s3.nextId ∧ s4.steps = s3.steps ∧
      s4.engine = s3.engine := by
    rw [hs4d, hsucc0]
    cases hsv : nodeNextAt s q₀ 0 with
    | none => exact ⟨rfl, rfl, rfl, rfl, rfl, rfl⟩
    | some sid => exact setPrevious_misc s3 sid _
  -- facts through s5
  have f_nn5 : ∀ p, nodeNext s5 p = nodeNext s4 p := by
    intro p
    rw [hs5d]
    exact nodeNext_setPrevious s4 nid _ p
  have f_some5 : ∀ q, (s5.arena q).isSome = (s4.arena q).isSome := by
    intro q
    rw [hs5d]
    exact arena_setPrevious_isSome s4 nid _ q
  have f_val5 : ∀ q, valueAt s5 q = valueAt s4 q := by
    intro q
    rw [hs5d]
    exact arena_setPrevious_value s4 nid _ q
  have f_prev5_other : ∀ q, q ≠ nid →
      (s5.arena q).bind (·.previous) = (s4.arena q).bind (·.previous) := by
    intro q hq
    rw [hs5d]
    exact arena_setPrevious_prev_ne hq _
  have hs4nid_some : (s4.arena nid).isSome := by
    rw [f_some4, hs3nid]
    rfl
  have f_prev5_nid : (s5.arena nid).bind (·.previous) = some q₀ := by
    obtain ⟨e4, he4⟩ := Option.isSome_iff_exists.mp hs4nid_some
    rw [hs5d, arena_setPrevious_prev_self he4, hupdAll 0]
  have f_misc5 : s5.head_next = s4.head_next ∧ s5.tail = s4.tail ∧
      s5.size = s4.size ∧ s5.nextId = s4.nextId ∧ s5.steps = s4.steps ∧
      s5.engine = s4.engine := by
    rw [hs5d]
    have hm := setPrevious_misc s4 nid (some (upd.getD 0 Ptr.head))
    exact ⟨hm.1, hm.2.1, hm.2.2.1, hm.2.2.2.1, hm.2.2.2.2.1, hm.2.2.2.2.2⟩
  -- the tail update condition
  have hs5tail : s5.tail = s.tail := by
    rw [f_misc5.2.1, f_misc4.2.1, hs3d, c7.1, hs2d]
  have hcond : (s5.tail = Ptr.head ∨ (s5.arena nid).bind (·.previous) = some s5.tail) ↔
      (s.tail = Ptr.head ∨ q₀ = s.tail) := by
    rw [hs5tail, f_prev5_nid]
    constructor
    · rintro (hx | hx)
      · exact Or.inl hx
      · exact Or.inr (Option.some_inj.mp hx)
    · rintro (hx | hx)
      · exact Or.inl hx
      · exact Or.inr (by rw [hx])
  have hs6split : (s6 = { s5 with tail := Ptr.elem nid } ∧ (s.tail = Ptr.head ∨ q₀ = s.tail)) ∨
      (s6 = s5 ∧ ¬ (s.tail = Ptr.head ∨ q₀ = s.tail)) := by
    by_cases hcc : s.tail = Ptr.head ∨ q₀ = s.tail
    · left
      exact ⟨by rw [hs6d, if_pos (hcond.mpr hcc)], hcc⟩
    · right
      exact ⟨by rw [hs6d, if_neg (fun hx => hcc (hcond.mp hx))], hcc⟩
  have f_nn6 : ∀ p, nodeNext s6 p = nodeNext s5 p := by
    intro p
    rcases hs6split with ⟨he, _⟩ | ⟨he, _⟩ <;> rw [he] <;>
      cases p <;> rfl
  have f_arena6 : s6.arena = s5.arena := by
    rcases hs6split with ⟨he, _⟩ | ⟨he, _⟩ <;> rw [he]
  have f_tail6 : s6.tail = if s.tail = Ptr.head ∨ q₀ = s.tail then Ptr.elem nid
      else s.tail := by
    rcases hs6split with ⟨he, hc⟩ | ⟨he, hc⟩
    · rw [he, if_pos hc]
    · rw [he, if_neg hc, hs5tail]
  have f_misc6 : s6.head_next = s5.head_next ∧ s6.size = s5.size ∧
      s6.nextId = s5.nextId ∧ s6.steps = s5.steps ∧ s6.engine = s5.engine := by
    rcases hs6split with ⟨he, _⟩ | ⟨he, _⟩ <;> rw [he] <;>
      exact ⟨rfl, rfl, rfl, rfl, rfl⟩
  -- combined projection chains to the final state
  have hT := hxf
  have t_nn : ∀ p, nodeNext (xinsertFresh s upd0 v).2 p = nodeNext s3 p := by
    intro p
    rw [hT]
    have : nodeNext { s6 with size := s6.size + 1 } p = nodeNext s6 p := by
      cases p <;> rfl
    rw [this, f_nn6, f_nn5, f_nn4]
  have t_arena : (xinsertFresh s upd0 v).2.arena = s5.arena := by
    rw [hT]
    show s6.arena = s5.arena
    exact f_arena6
  -- size, nextId, steps, engine, head length, tail
  have t_size : (xinsertFresh s upd0 v).2.size = s.size + 1 := by
    rw [hT]
    show s6.size + 1 = s.size + 1
    rw [f_misc6.2.1, f_misc5.2.2.1, f_misc4.2.2.1, hs3d, c7.2.1, hs2d]
  have t_nextId : (xinsertFresh s upd0 v).2.nextId = s.nextId + 1 := by
    rw [hT]
    show s6.nextId = s.nextId + 1
    rw [f_misc6.2.2.1, f_misc5.2.2.2.1, f_misc4.2.2.2.1, hs3d, c7.2.2.1, hs2d]
  have t_steps : (xinsertFresh s upd0 v).2.steps = s.steps + 1 := by
    rw [hT]
    show s6.steps = s.steps + 1
    rw [f_misc6.2.2.2.1, f_misc5.2.2.2.2.1, f_misc4.2.2.2.2.1, hs3d, c7.2.2.2.1, hs2d]
  have t_engine : (xinsertFresh s upd0 v).2.engine = s.engine := by
    rw [hT]
    show s6.engine = s.engine
    rw [f_misc6.2.2.2.2, f_misc5.2.2.2.2.2, f_misc4.2.2.2.2.2, hs3d, c7.2.2.2.2, hs2d]
  have t_headlen : (xinsertFresh s upd0 v).2.head_next.length =
      max s.head_next.length lv := by
    rw [hT]
    show s6.head_next.length = _
    rw [f_misc6.1, f_misc5.1, f_misc4.1]
    have h9 : (nodeNext s3 Ptr.head).length = (nodeNext s2 Ptr.head).length := by
      rw [hs3d]
      exact c6 Ptr.head (fun hc => Ptr.noConfusion hc)
    have h10 : s3.head_next.length = s2.head_next.length := h9
    rw [h10, hs2hl]
  have t_tail : (xinsertFresh s upd0 v).2.tail =
      if s.tail = Ptr.head ∨ q₀ = s.tail then Ptr.elem nid else s.tail := by
    rw [hT]
    show s6.tail = _
    exact f_tail6
  -- arena-level projections
  have t_some_other : ∀ q, q ≠ nid →
      ((xinsertFresh s upd0 v).2.arena q).isSome = (s.arena q).isSome := by
    intro q hq
    rw [t_arena, f_some5, f_some4, hs3d, c3 q, hs2d]
    simp [hq]
  have t_some_nid : ((xinsertFresh s upd0 v).2.arena nid).isSome := by
    rw [t_arena, f_some5, f_some4, hs3nid]
    rfl
  have t_val_other : ∀ q, q ≠ nid →
      valueAt (xinsertFresh s upd0 v).2 q = valueAt s q := by
    intro q hq
    have : valueAt (xinsertFresh s upd0 v).2 q = valueAt s5 q := by
      simp only [valueAt, t_arena]
    rw [this, f_val5, f_val4, hs3d, c4 q, valueAt, hs2d]
    simp [hq, valueAt]
  have t_val_nid : valueAt (xinsertFresh s upd0 v).2 nid = some v := by
    have : valueAt (xinsertFresh s upd0 v).2 nid = valueAt s5 nid := by
      simp only [valueAt, t_arena]
    rw [this, f_val5, f_val4, valueAt, hs3nid]
    rfl
  have t_prev_other : ∀ q, q ≠ nid → nodeNextAt s q₀ 0 ≠ some q →
      ((xinsertFresh s upd0 v).2.arena q).bind (·.previous) =
        (s.arena q).bind (·.previous) := by
    intro q hq hq2
    rw [t_arena, f_prev5_other q hq, f_prev4_other q hq2, hs3d, c5 q, hs2d]
    simp [hq]
  have t_prev_nid : ((xinsertFresh s upd0 v).2.arena nid).bind (·.previous) =
      some q₀ := by
    rw [t_arena]
    exact f_prev5_nid
  have t_prev_sid : ∀ sid, nodeNextAt s q₀ 0 = some sid → sid ≠ nid →
      ((xinsertFresh s upd0 v).2.arena sid).bind (·.previous) =
        some (Ptr.elem nid) := by
    intro sid hsid hne
    rw [t_arena, f_prev5_other sid hne]
    rw [hs4d, hsucc0, hsid]
    have hsome3 : (s3.arena sid).isSome := by
      rw [hs3d, c3 sid, hs2d]
      simp only [hne, if_false]
      -- sid is the head of the drop-while suffix, hence a live element
      have hnn : nodeNextAt s q₀ 0 ≠ none := by rw [hsid]; exact fun hc => by cases hc
      by_cases hids : ids = []
      · exfalso
        apply hnn
        have hq0 : q₀ = Ptr.head := by
          rw [hq₀d, hids]
          simp [bpredAt, levelIds]
        rw [hq0]
        show s.head_next.getD 0 none = none
        have h0 : s.head_next.length = 0 := (head_len_zero_iff h).mpr hids
        rw [List.getD_eq_getElem?_getD, List.getElem?_eq_none (by omega)]
        rfl
      · have hx₀ : (ids.dropWhile (belowP keyOf s (keyOf v))).head? = some sid := by
          rw [← bpred0_next h _ hids, ← hq₀d]
          exact hsid
        have : sid ∈ ids :=
          (List.dropWhile_sublist _).subset (List.mem_of_mem_head? hx₀)
        exact (h.mem sid).mpr this
    obtain ⟨e3, he3⟩ := Option.isSome_iff_exists.mp hsome3
    rw [arena_setPrevious_prev_self he3]
  have t_height_other : ∀ q, q ≠ nid →
      heightOf (xinsertFresh s upd0 v).2 q = heightOf s q := by
    intro q hq
    rw [heightOf_eq_nodeNext_length, heightOf_eq_nodeNext_length, t_nn,
      hs3d]
    rw [c6 (Ptr.elem q) (fun hc => hq (Ptr.elem.inj hc))]
    rw [nodeNext_elem_congr (hs2arena q hq)]
  have t_height_nid : heightOf (xinsertFresh s upd0 v).2 nid = lv := by
    rw [heightOf_eq_nodeNext_length, t_nn, hc2']
    simp
  have t_nn_nid : nodeNext (xinsertFresh s upd0 v).2 (Ptr.elem nid) =
      (List.range' 0 lv).map
        (fun j => nodeNextAt s (bpredAt keyOf s ids (keyOf v) j) j) := by
    rw [t_nn, hc2']
  have t_nnAt_other : ∀ p i', p ≠ Ptr.elem nid →
      nodeNextAt (xinsertFresh s upd0 v).2 p i' =
        if i' < lv ∧ bpredAt keyOf s ids (keyOf v) i' = p then some nid
        else nodeNextAt s p i' := by
    intro p i' hp
    have h1 : nodeNextAt (xinsertFresh s upd0 v).2 p i' = nodeNextAt s3 p i' := by
      rw [nodeNextAt, t_nn, nodeNextAt]
    rw [h1, hs3d, c1 p i' hp]
    by_cases hcc : 0 ≤ i' ∧ i' < 0 + lv ∧ upd.getD i' Ptr.head = p
    · rw [if_pos hcc, if_pos ⟨by omega, by rw [← hupdAll i']; exact hcc.2.2⟩]
    · rw [if_neg hcc, hs2nn p hp i']
      have : ¬ (i' < lv ∧ bpredAt keyOf s ids (keyOf v) i' = p) := by
        intro ⟨hx1, hx2⟩
        exact hcc ⟨by omega, by omega, by rw [hupdAll i']; exact hx2⟩
      rw [if_neg this]
  have t_fst : (xinsertFresh s upd0 v).1 = (q₀, true) := by
    rw [hT]
    show (upd.getD 0 Ptr.head, true) = (q₀, true)
    rw [hupdAll 0, hq₀d]
  exact ⟨t_fst, t_nnAt_other, t_nn_nid, t_some_other, t_some_nid, t_val_other,
    t_val_nid, t_prev_other, t_prev_nid, t_prev_sid, t_height_other,
    t_height_nid, t_headlen, t_tail, t_size, t_nextId, t_steps, t_engine⟩

theorem keyAt_congr {s t : SkipList V} {q : Nat}
    (h : valueAt t q = valueAt s q) (keyOf : V → K) :
    keyAt keyOf t q = keyAt keyOf s q := by
  simp only [keyAt]
  rw [valueAt, valueAt] at h
  cases ht : t.arena q with
  | none =>
    cases hs : s.arena q with
    | none => rfl
    | some e => rw [ht, hs] at h; exact Option.noConfusion h
  | some e =>
    cases hs : s.arena q with
    | none => rw [ht, hs] at h; exact Option.noConfusion h
    | some e' =>
      rw [ht, hs] at h
      simp at h
      show keyOf e.value = keyOf e'.value
      rw [h]

theorem keyAt_of_valueAt {t : SkipList V} {q : Nat} {v : V}
    (h : valueAt t q = some v) (keyOf : V → K) :
    keyAt keyOf t q = keyOf v := by
  simp only [keyAt]
  rw [valueAt] at h
  cases ht : t.arena q with
  | none => rw [ht] at h; exact Option.noConfusion h
  | some e =>
    rw [ht] at h
    simp at h
    show keyOf e.value = keyOf v
    rw [h]

theorem getD_map_range' {α : Type} (f : Nat → α) {n i : Nat} (hi : i < n)
    (d : α) : ((List.range' 0 n).map f).getD i d = f i := by
  rw [List.getD_eq_getElem?_getD, List.getElem?_map, List.getElem?_range' 0 1 hi]
  simp

/-- The below-key prefix and the rest of a level's chain are the
filtrations of the below-key prefix and the rest of the whole chain. -/
theorem level_split_eq {s : SkipList V} {ids : List Nat}
    (h : Represents keyOf s ids) (key : K) (i : Nat) :
    (levelIds s ids i).takeWhile (belowP keyOf s key) =
      (ids.takeWhile (belowP keyOf s key)).filter
        (fun id => decide (i < heightOf s id)) ∧
    (levelIds s ids i).dropWhile (belowP keyOf s key) =
      (ids.dropWhile (belowP keyOf s key)).filter
        (fun id => decide (i < heightOf s id)) := by
  constructor
  · exact takeWhile_filter_comm h.sorted
      (fun a b hab hb => by
        simp only [belowP, decide_eq_true_eq] at hb ⊢
        exact lt_trans hab hb)
  · exact dropWhile_filter_comm h.sorted
      (fun a b hab hb => by
        simp only [belowP, decide_eq_true_eq] at hb ⊢
        exact lt_trans hab hb)

/-- The level-0 exit position in terms of the below-key prefix of the
whole chain. -/
theorem bpred0_form {s : SkipList V} {ids : List Nat}
    (h : Represents keyOf s ids) (key : K) :
    bpredAt keyOf s ids key 0 =
      ((ids.takeWhile (belowP keyOf s key)).map Ptr.elem).getLastD Ptr.head := by
  rw [bpredAt, levelIds_zero h]

/-- After the splice, every level's chain of the new container links
the filtered below-key prefix, then the fresh node (on the levels it
participates in), then the filtered rest. -/
theorem insert_links {s t : SkipList V} {ids : List Nat}
    (h : Represents keyOf s ids) (key : K) {nid lv : Nat}
    (hfr : ∀ p ∈ ids, p < nid) (hlv : 1 ≤ lv)
    (hnnAt : ∀ p i', p ≠ Ptr.elem nid →
      nodeNextAt t p i' =
        if i' < lv ∧ bpredAt keyOf s ids key i' = p then some nid
        else nodeNextAt s p i')
    (hnnNid : nodeNext t (Ptr.elem nid) =
      (List.range' 0 lv).map (fun j => nodeNextAt s (bpredAt keyOf s ids key j) j))
    (hho : ∀ q, q ≠ nid → heightOf t q = heightOf s q)
    (hhn : heightOf t nid = lv)
    (hhl : t.head_next.length = max s.head_next.length lv) :
    ∀ i, i < t.head_next.length →
      Segment t i (t.head_next.getD i none)
        (levelIds t (ids.takeWhile (belowP keyOf s key) ++ nid ::
          ids.dropWhile (belowP keyOf s key)) i) none := by
  intro i hi
  have hfront_sub : ∀ a ∈ ids.takeWhile (belowP keyOf s key), a ∈ ids :=
    fun a ha => (List.takeWhile_sublist _).subset ha
  have hback_sub : ∀ a ∈ ids.dropWhile (belowP keyOf s key), a ∈ ids :=
    fun a ha => (List.dropWhile_sublist _).subset ha
  -- the filtered shape of the new level list
  have hlvl : levelIds t (ids.takeWhile (belowP keyOf s key) ++ nid ::
      ids.dropWhile (belowP keyOf s key)) i =
      (levelIds s ids i).takeWhile (belowP keyOf s key) ++
      (if i < lv then [nid] else []) ++
      (levelIds s ids i).dropWhile (belowP keyOf s key) := by
    rw [levelIds, List.filter_append, List.filter_cons]
    rw [(level_split_eq h key i).1, (level_split_eq h key i).2]
    have hf : ∀ (l : List Nat), (∀ a ∈ l, a ∈ ids) →
        l.filter (fun id => decide (i < heightOf t id)) =
        l.filter (fun id => decide (i < heightOf s id)) := by
      intro l hl
      apply List.filter_congr
      intro x hx
      rw [hho x (by have := hfr x (hl x hx); omega)]
    rw [hf _ hfront_sub, hf _ hback_sub, hhn]
    by_cases hilv : i < lv
    · simp [hilv]
    · simp [hilv]
  rw [hlvl]
  set bi := (levelIds s ids i).takeWhile (belowP keyOf s key) with hbid
  set ri := (levelIds s ids i).dropWhile (belowP keyOf s key) with hrid
  have hbir : bi ++ ri = levelIds s ids i := List.takeWhile_append_dropWhile _ _
  have hbimem : ∀ a ∈ bi, a ∈ ids := fun a ha =>
    levelIds_subset a ((List.takeWhile_sublist _).subset ha)
  have hrimem : ∀ a ∈ ri, a ∈ ids := fun a ha =>
    levelIds_subset a ((List.dropWhile_sublist _).subset ha)
  have hentry : t.head_next.getD i none =
      if i < lv ∧ bpredAt keyOf s ids key i = Ptr.head then some nid
      else s.head_next.getD i none := by
    rw [← nodeNextAt_head, ← nodeNextAt_head]
    exact hnnAt Ptr.head i (fun hc => Ptr.noConfusion hc)
  by_cases hilv : i < lv
  · -- the fresh node participates: bi ++ nid :: ri
    simp only [hilv, if_true]
    -- the old segment of level i, when the level exists
    have hnidnext : elemNextAt t nid i = nodeNextAt s (bpredAt keyOf s ids key i) i := by
      rw [← nodeNextAt_elem, nodeNextAt, hnnNid, getD_map_range' _ hilv]
    have hmid : Segment t i (elemNextAt t nid i) ri none := by
      -- the rest of the level links unchanged from the old state
      have hold : Segment s i (nodeNextAt s (bpredAt keyOf s ids key i) i) ri none := by
        by_cases hiL : i < s.head_next.length
        · exact bpred_suffix h key hiL
        · have hLi : levelIds s ids i = [] := levelIds_top h (by omega)
          have hri : ri = [] := by rw [hrid, hLi]; rfl
          have hbp : bpredAt keyOf s ids key i = Ptr.head := bpredAt_top h (by omega)
          rw [hri, hbp]
          show nodeNextAt s Ptr.head i = none
          rw [nodeNextAt_head, List.getD_eq_getElem?_getD,
            List.getElem?_eq_none (by omega)]
          rfl
      rw [hnidnext]
      apply segment_congr _ hold
      intro a ha
      rw [← nodeNextAt_elem, ← nodeNextAt_elem]
      rw [hnnAt (Ptr.elem a) i (fun hc => by
        have := hfr a (hrimem a ha)
        have := Ptr.elem.inj hc
        omega)]
      have hcond : ¬ (i < lv ∧ bpredAt keyOf s ids key i = Ptr.elem a) := by
        rintro ⟨_, hbp⟩
        rcases bpred_cases h key i with hc | ⟨p, hc, hpl, hpb⟩
        · rw [hc] at hbp; exact Ptr.noConfusion hbp
        · rw [hc] at hbp
          have hpa : p = a := Ptr.elem.inj hbp
          subst hpa
          -- p is below the key but a is in the not-below rest
          have hpbi : p ∈ bi := by
            rw [hbid]
            rcases List.eq_nil_or_concat ((levelIds s ids i).takeWhile (belowP keyOf s key))
              with hnil | ⟨c, z, hcz⟩
            · exfalso
              have : bpredAt keyOf s ids key i = Ptr.head := by
                simp [bpredAt, hnil]
              rw [this] at hc
              exact Ptr.noConfusion hc
            · rw [List.concat_eq_append] at hcz
              have : bpredAt keyOf s ids key i = Ptr.elem z := by
                simp [bpredAt, hcz, getLastD_concat]
              rw [this] at hc
              have := Ptr.elem.inj hc
              rw [hcz, ← this]
              simp
          have hnd : (bi ++ ri).Nodup := by
            rw [hbir]
            exact h.nodup.sublist (List.filter_sublist ids)
          exact (List.disjoint_of_nodup_append hnd) hpbi ha
      rw [if_neg hcond]
  -- build the below-key prefix part, redirected at its end to nid
    rcases List.eq_nil_or_concat bi with hbnil | ⟨c, a, hca⟩
    · -- empty prefix: the head entry itself is redirected
      have hbp : bpredAt keyOf s ids key i = Ptr.head := by
        rw [bpredAt, ← hbid, hbnil]
        rfl
      rw [hbnil, hentry, if_pos ⟨hilv, hbp⟩]
      exact ⟨rfl, hmid⟩
    · rw [List.concat_eq_append] at hca
      have hbp : bpredAt keyOf s ids key i = Ptr.elem a := by
        rw [bpredAt, ← hbid, hca]
        simp [getLastD_concat]
      -- the old level-i chain splits as (c ++ [a]) ++ ri
      have hiL : i < s.head_next.length := by
        by_contra hiL
        have hLi : levelIds s ids i = [] := levelIds_top h (by omega)
        rw [hbid, hLi] at hca
        simp at hca
      have hold := h.links i hiL
      rw [← hbir, hca] at hold
      obtain ⟨m, hm₁, hm₂⟩ := segment_split hold
      have hma : elemNextAt s a i = m := segment_concat_exit hm₁
      obtain ⟨m', hc₁, hc₂⟩ := segment_split hm₁
      have hm'a : m' = some a := hc₂.1
      have hbind : (c ++ [a]).Nodup := by
        rw [← hca, hbid]
        exact (h.nodup.sublist (List.filter_sublist ids)).sublist
          (List.takeWhile_sublist _)
      have hanotc : a ∉ c := by
        have h2 := List.nodup_middle.mp (show (c ++ a :: []).Nodup by simpa using hbind)
        rw [List.nodup_cons] at h2
        intro hac
        exact h2.1 (by simpa using hac)
      -- transfer the strict prefix c unchanged
      have hcseg : Segment t i (t.head_next.getD i none) c m' := by
        have hentry' : t.head_next.getD i none = s.head_next.getD i none := by
          rw [hentry, if_neg (by rintro ⟨_, hx⟩; rw [hbp] at hx; exact Ptr.noConfusion hx)]
        rw [hentry']
        apply segment_congr _ hc₁
        intro x hx
        rw [← nodeNextAt_elem, ← nodeNextAt_elem]
        rw [hnnAt (Ptr.elem x) i (fun hc => by
          have hxm : x ∈ ids := hbimem x (by rw [hca]; simp [hx])
          have := hfr x hxm
          have := Ptr.elem.inj hc
          omega)]
        rw [if_neg (by
          rintro ⟨_, hx₂⟩
          rw [hbp] at hx₂
          exact hanotc (by rw [Ptr.elem.inj hx₂]; exact hx))]
      -- a's pointer is redirected to nid
      have haseg : Segment t i m' [a] (some nid) := by
        rw [hm'a]
        refine ⟨rfl, ?_⟩
        rw [← nodeNextAt_elem]
        rw [hnnAt (Ptr.elem a) i (fun hc => by
          have := hfr a (hbimem a (by rw [hca]; simp))
          have := Ptr.elem.inj hc
          omega)]
        rw [if_pos ⟨hilv, hbp⟩]
        rfl
      have hnidm : elemNextAt t nid i = m := by
        rw [hnidnext, hbp, nodeNextAt_elem, hma]
      rw [hca]
      have hnidstep : Segment t i (some nid) [nid] (elemNextAt t nid i) :=
        ⟨rfl, rfl⟩
      exact segment_append (segment_append (segment_append hcseg haseg) hnidstep)
        hmid
  · -- the fresh node does not participate at this level
    simp only [hilv, if_false]
    have hiL : i < s.head_next.length := by
      rw [hhl] at hi
      omega
    have hold := h.links i hiL
    rw [← hbir] at hold
    have hentry' : t.head_next.getD i none = s.head_next.getD i none := by
      rw [hentry, if_neg (by rintro ⟨hx, _⟩; omega)]
    rw [List.append_nil, hbir, hentry']
    rw [hbir] at hold
    apply segment_congr _ hold
    intro x hx
    rw [← nodeNextAt_elem, ← nodeNextAt_elem]
    rw [hnnAt (Ptr.elem x) i (fun hc => by
      have := hfr x (levelIds_subset x hx)
      have := Ptr.elem.inj hc
      omega)]
    rw [if_neg (by rintro ⟨hx₂, _⟩; omega)]

/-- Inserting an absent key: the call reports `inserted = true` with an
iterator tracking the new node's level-0 predecessor, and the container
afterwards represents the old chain with the fresh node placed between
the keys below and the keys above; unrelated nodes keep their values
and level-0 successors. -/
theorem xinsert_absent_represents {s : SkipList V} {ids : List Nat}
    (h : Represents keyOf s ids) {v : V}
    (habs : ∀ id ∈ ids, keyAt keyOf s id ≠ keyOf v)
    (hlv : 1 ≤ next_level (s.engine s.steps)) (hint : Ptr) :
    (xinsert keyOf s hint v).1 = (bpredAt keyOf s ids (keyOf v) 0, true) ∧
    Represents keyOf (xinsert keyOf s hint v).2
      (ids.takeWhile (belowP keyOf s (keyOf v)) ++ s.nextId ::
        ids.dropWhile (belowP keyOf s (keyOf v))) ∧
    (∀ p i', p ≠ Ptr.elem s.nextId →
      nodeNextAt (xinsert keyOf s hint v).2 p i' =
        if i' < next_level (s.engine s.steps) ∧
            bpredAt keyOf s ids (keyOf v) i' = p then some s.nextId
        else nodeNextAt s p i') ∧
    (∀ q, q ≠ s.nextId →
      valueAt (xinsert keyOf s hint v).2 q = valueAt s q) ∧
    (xinsert keyOf s hint v).2.size = s.size + 1 ∧
    (xinsert keyOf s hint v).2.engine = s.engine := by
  rw [xinsert_absent_eq h habs hint]
  have hfull := descendUpdate_full h (keyOf v)
  obtain ⟨f1, f2, f3, f4, f5, f6, f7, f8, f9, f10, f11, f12, f13, f14, f15,
    f16, f17, f18⟩ := xinsertFresh_facts h v hfull.2.1 hfull.2.2 hlv
  have hsplit : ids.takeWhile (belowP keyOf s (keyOf v)) ++
      ids.dropWhile (belowP keyOf s (keyOf v)) = ids :=
    List.takeWhile_append_dropWhile _ _
  have hnidmem : s.nextId ∉ ids := fun hc => absurd (h.fresh _ hc) (lt_irrefl _)
  have hfront_sub : ∀ a ∈ ids.takeWhile (belowP keyOf s (keyOf v)), a ∈ ids :=
    fun a ha => (List.takeWhile_sublist _).subset ha
  have hback_sub : ∀ a ∈ ids.dropWhile (belowP keyOf s (keyOf v)), a ∈ ids :=
    fun a ha => (List.dropWhile_sublist _).subset ha
  have htval : ∀ q ∈ ids, valueAt (xinsertFresh s
      (descendUpdate keyOf s (keyOf v) s.head_next.length Ptr.head).2 v).2 q =
      valueAt s q := by
    intro q hq
    exact f6 q (fun hc => hnidmem (hc ▸ hq))
  have htkey : ∀ q ∈ ids, keyAt keyOf (xinsertFresh s
      (descendUpdate keyOf s (keyOf v) s.head_next.length Ptr.head).2 v).2 q =
      keyAt keyOf s q := fun q hq => keyAt_congr (htval q hq) keyOf
  have htkeynid : keyAt keyOf (xinsertFresh s
      (descendUpdate keyOf s (keyOf v) s.head_next.length Ptr.head).2 v).2
      s.nextId = keyOf v := keyAt_of_valueAt f7 keyOf
  have hkey_front : ∀ a ∈ ids.takeWhile (belowP keyOf s (keyOf v)),
      keyAt keyOf s a < keyOf v := by
    intro a ha
    have := List.mem_takeWhile_imp ha
    simpa [belowP] using this
  have hkey_back : ∀ b ∈ ids.dropWhile (belowP keyOf s (keyOf v)),
      keyOf v < keyAt keyOf s b := by
    intro b hb
    cases hB : ids.dropWhile (belowP keyOf s (keyOf v)) with
    | nil => rw [hB] at hb; cases hb
    | cons b0 bt =>
      have hb0 : ¬ keyAt keyOf s b0 < keyOf v := by
        have := dropWhile_head_false hB
        simpa [belowP] using this
      have hb0' : keyOf v < keyAt keyOf s b0 :=
        lt_of_le_of_ne (not_lt.mp hb0)
          (fun hc => habs b0 (hback_sub b0 (by rw [hB]; simp)) hc.symm)
      rw [hB] at hb
      rcases List.mem_cons.mp hb with rfl | hbt
      · exact hb0'
      · have hpb : (ids.dropWhile (belowP keyOf s (keyOf v))).Pairwise
            (fun a b => keyAt keyOf s a < keyAt keyOf s b) :=
          h.sorted.sublist (List.dropWhile_sublist _)
        rw [hB] at hpb
        exact lt_trans hb0' ((List.pairwise_cons.mp hpb).1 b hbt)
  have hdisj : (ids.takeWhile (belowP keyOf s (keyOf v))).Disjoint
      (ids.dropWhile (belowP keyOf s (keyOf v))) :=
    List.disjoint_of_nodup_append (by rw [hsplit]; exact h.nodup)
  refine ⟨f1, ⟨?_, ?_, ?_, ?_, ?_, ?_, ?_, ?_, ?_, ?_, ?_⟩, f2, f6, f15, f18⟩
  · -- mem
    intro q
    by_cases hq : q = s.nextId
    · subst hq
      refine ⟨fun _ => ?_, fun _ => f5⟩
      simp
    · rw [f4 q hq, h.mem q]
      constructor
      · intro hqid
        rw [← hsplit] at hqid
        rcases List.mem_append.mp hqid with hx | hx
        · exact List.mem_append.mpr (Or.inl hx)
        · exact List.mem_append.mpr (Or.inr (List.mem_cons.mpr (Or.inr hx)))
      · intro hqid
        rw [← hsplit]
        rcases List.mem_append.mp hqid with hx | hx
        · exact List.mem_append.mpr (Or.inl hx)
        · rcases List.mem_cons.mp hx with rfl | hx
          · exact absurd rfl hq
          · exact List.mem_append.mpr (Or.inr hx)
  · -- nodup
    rw [List.nodup_middle, List.nodup_cons, hsplit]
    exact ⟨hnidmem, h.nodup⟩
  · -- fresh
    intro x hx
    rw [f16]
    rcases List.mem_append.mp hx with hx | hx
    · have := h.fresh x (hfront_sub x hx)
      omega
    · rcases List.mem_cons.mp hx with rfl | hx
      · omega
      · have := h.fresh x (hback_sub x hx)
        omega
  · -- sorted
    rw [List.pairwise_append]
    refine ⟨?_, ?_, ?_⟩
    · have hp : (ids.takeWhile (belowP keyOf s (keyOf v))).Pairwise
          (fun a b => keyAt keyOf s a < keyAt keyOf s b) :=
        h.sorted.sublist (List.takeWhile_sublist _)
      exact List.Pairwise.imp_of_mem
        (fun ha hb hr => by
          rw [htkey _ (hfront_sub _ ha), htkey _ (hfront_sub _ hb)]
          exact hr) hp
    · rw [List.pairwise_cons]
      constructor
      · intro b hb
        rw [htkeynid, htkey b (hback_sub b hb)]
        exact hkey_back b hb
      · have hp : (ids.dropWhile (belowP keyOf s (keyOf v))).Pairwise
            (fun a b => keyAt keyOf s a < keyAt keyOf s b) :=
          h.sorted.sublist (List.dropWhile_sublist _)
        exact List.Pairwise.imp_of_mem
          (fun ha hb hr => by
            rw [htkey _ (hback_sub _ ha), htkey _ (hback_sub _ hb)]
            exact hr) hp
    · intro a ha b hb
      rcases List.mem_cons.mp hb with rfl | hb
      · rw [htkeynid, htkey a (hfront_sub a ha)]
        exact hkey_front a ha
      · rw [htkey a (hfront_sub a ha), htkey b (hback_sub b hb)]
        exact lt_trans (hkey_front a ha) (hkey_back b hb)
  · -- hgt_pos
    intro x hx
    rcases List.mem_append.mp hx with hx | hx
    · rw [f11 x (fun hc => hnidmem (hc ▸ hfront_sub x hx))]
      exact h.hgt_pos x (hfront_sub x hx)
    · rcases List.mem_cons.mp hx with rfl | hx
      · rw [f12]; exact hlv
      · rw [f11 x (fun hc => hnidmem (hc ▸ hback_sub x hx))]
        exact h.hgt_pos x (hback_sub x hx)
  · -- hgt_le
    intro x hx
    rw [f13]
    rcases List.mem_append.mp hx with hx | hx
    · rw [f11 x (fun hc => hnidmem (hc ▸ hfront_sub x hx))]
      exact le_trans (h.hgt_le x (hfront_sub x hx)) (le_max_left _ _)
    · rcases List.mem_cons.mp hx with rfl | hx
      · rw [f12]; exact le_max_right _ _
      · rw [f11 x (fun hc => hnidmem (hc ▸ hback_sub x hx))]
        exact le_trans (h.hgt_le x (hback_sub x hx)) (le_max_left _ _)
  · -- links
    exact insert_links h (keyOf v) h.fresh hlv f2 f3 f11 f12 f13
  · -- level_nonempty
    intro i hi
    rw [f13] at hi
    by_cases hilv : i < next_level (s.engine s.steps)
    · have : s.nextId ∈ levelIds (xinsertFresh s
          (descendUpdate keyOf s (keyOf v) s.head_next.length Ptr.head).2 v).2
          (ids.takeWhile (belowP keyOf s (keyOf v)) ++ s.nextId ::
            ids.dropWhile (belowP keyOf s (keyOf v))) i := by
        rw [levelIds, List.mem_filter]
        exact ⟨by simp, by rw [f12]; simpa using hilv⟩
      exact List.ne_nil_of_mem this
    · have hiL : i < s.head_next.length := by omega
      obtain ⟨x, hx⟩ := List.exists_mem_of_ne_nil _ (h.level_nonempty i hiL)
      have hxm := List.mem_filter.mp hx
      have hxid : x ∈ ids := hxm.1
      have hxh : i < heightOf s x := by simpa using hxm.2
      have : x ∈ levelIds (xinsertFresh s
          (descendUpdate keyOf s (keyOf v) s.head_next.length Ptr.head).2 v).2
          (ids.takeWhile (belowP keyOf s (keyOf v)) ++ s.nextId ::
            ids.dropWhile (belowP keyOf s (keyOf v))) i := by
        rw [levelIds, List.mem_filter]
        constructor
        · rw [← hsplit] at hxid
          rcases List.mem_append.mp hxid with hh | hh
          · exact List.mem_append.mpr (Or.inl hh)
          · exact List.mem_append.mpr (Or.inr (List.mem_cons.mpr (Or.inr hh)))
        · rw [f11 x (fun hc => hnidmem (hc ▸ hxid))]
          simpa using hxh
      exact List.ne_nil_of_mem this
  · -- prevs
    rw [prevIds_append]
    have hq0form := bpred0_form h (keyOf v)
    constructor
    · -- the below-key prefix keeps its backward pointers
      have hold : PrevIds s Ptr.head (ids.takeWhile (belowP keyOf s (keyOf v))) := by
        have := h.prevs
        rw [← hsplit] at this
        exact (prevIds_append.mp this).1
      apply prevIds_congr _ hold
      intro a ha
      have hane : a ≠ s.nextId := fun hc => hnidmem (hc ▸ hfront_sub a ha)
      have hnosucc : nodeNextAt s (bpredAt keyOf s ids (keyOf v) 0) 0 ≠ some a := by
        intro hc
        have hne : ids ≠ [] := fun hc2 => by
          rw [hc2] at ha
          simp at ha
        rw [bpred0_next h _ hne] at hc
        exact hdisj ha (List.mem_of_mem_head? hc)
      exact f8 a hane hnosucc
    · -- the new node points back at the splice point, the suffix follows it
      rw [← hq0form]
      cases hB : ids.dropWhile (belowP keyOf s (keyOf v)) with
      | nil => exact ⟨f9, trivial⟩
      | cons b0 bt =>
        have hne : ids ≠ [] := by
          intro hc
          rw [hc] at hB
          simp at hB
        have hq0next : nodeNextAt s (bpredAt keyOf s ids (keyOf v) 0) 0 =
            some b0 := by
          rw [bpred0_next h _ hne, hB]
          rfl
        have hb0back : b0 ∈ ids.dropWhile (belowP keyOf s (keyOf v)) := by
          rw [hB]; simp
        have hb0ne : b0 ≠ s.nextId :=
          fun hc => hnidmem (hc ▸ hback_sub b0 hb0back)
        refine ⟨f9, f10 b0 hq0next hb0ne, ?_⟩
        have holdb : PrevIds s (Ptr.elem b0) bt := by
          have hp := h.prevs
          rw [← hsplit] at hp
          have hp2 := (prevIds_append.mp hp).2
          rw [hB] at hp2
          exact hp2.2
        have hbnodup : (b0 :: bt).Nodup := by
          have := h.nodup.sublist (List.dropWhile_sublist
            (belowP keyOf s (keyOf v)))
          rwa [hB] at this
        apply prevIds_congr _ holdb
        intro a ha
        have hab : a ∈ ids.dropWhile (belowP keyOf s (keyOf v)) := by
          rw [hB]; simp [ha]
        have hane : a ≠ s.nextId := fun hc => hnidmem (hc ▸ hback_sub a hab)
        have hnosucc : nodeNextAt s (bpredAt keyOf s ids (keyOf v) 0) 0 ≠
            some a := by
          rw [hq0next]
          intro hc
          have : b0 = a := Option.some.inj hc
          exact (List.nodup_cons.mp hbnodup).1 (this ▸ ha)
        exact f8 a hane hnosucc
  · -- tailEq
    rw [f14]
    by_cases hB' : ids.dropWhile (belowP keyOf s (keyOf v)) = []
    · rw [hB'] at hsplit ⊢
      rw [List.append_nil] at hsplit
      have hcond : s.tail = Ptr.head ∨ bpredAt keyOf s ids (keyOf v) 0 = s.tail := by
        rcases eq_or_ne ids [] with hids | hids
        · left
          rw [h.tailEq, hids]
          rfl
        · right
          rw [bpred0_form h (keyOf v), hsplit, ← h.tailEq]
      rw [if_pos hcond, List.map_append, List.map_cons, List.map_nil]
      exact (getLastD_concat _ _ _).symm
    · obtain ⟨b0, bt, hB⟩ := List.exists_cons_of_ne_nil hB'
      have hsplit2 : ids.takeWhile (belowP keyOf s (keyOf v)) ++ b0 :: bt = ids := by
        rw [← hB]
        exact hsplit
      rcases List.eq_nil_or_concat (b0 :: bt) with hc0 | ⟨c2, z, hcz⟩
      · exact absurd hc0 (by simp)
      rw [List.concat_eq_append] at hcz
      have hznid : z ∈ ids.dropWhile (belowP keyOf s (keyOf v)) := by
        rw [hB, hcz]
        simp
      have htail : s.tail = Ptr.elem z := by
        rw [h.tailEq]
        conv_lhs => rw [← hsplit2, hcz, List.map_append, List.map_append,
          List.map_cons, List.map_nil, ← List.append_assoc]
        exact getLastD_concat _ _ _
      have hcond : ¬ (s.tail = Ptr.head ∨
          bpredAt keyOf s ids (keyOf v) 0 = s.tail) := by
        rintro (hc | hc)
        · rw [htail] at hc
          exact Ptr.noConfusion hc
        · rw [bpred0_form h (keyOf v), htail] at hc
          rcases List.eq_nil_or_concat
              (ids.takeWhile (belowP keyOf s (keyOf v))) with hf | ⟨c3, a, hfa⟩
          · rw [hf] at hc
            exact Ptr.noConfusion hc
          · rw [List.concat_eq_append] at hfa
            rw [hfa, List.map_append, List.map_cons, List.map_nil,
              getLastD_concat] at hc
            have haz : a = z := Ptr.elem.inj hc
            exact hdisj (show a ∈ _ by rw [hfa]; simp)
              (show a ∈ _ by rw [haz]; exact hznid)
      rw [if_neg hcond, hB]
      rw [List.map_append, List.map_cons, List.map_cons, getLastD_append_cons,
        List.getLastD_cons, List.getLastD_cons]
      conv_lhs => rw [h.tailEq, ← hsplit2, List.map_append, List.map_cons,
        getLastD_append_cons, List.getLastD_cons]
  · -- sizeEq
    rw [f15, h.sizeEq, List.length_append, List.length_cons]
    have := congrArg List.length hsplit
    rw [List.length_append] at this
    omega

end FreshInsert

/-! ## Iteration over a well-formed container -/

section Traversal

variable [Inhabited K] [LinearOrder K] {keyOf : V → K}

theorem getLastD_ne_nil {α : Type} {l : List α} (h : l ≠ []) (d₁ d₂ : α) :
    l.getLastD d₁ = l.getLastD d₂ := by
  rcases List.eq_nil_or_concat l with rfl | ⟨c, a, hca⟩
  · exact absurd rfl h
  · rw [List.concat_eq_append] at hca
    rw [hca, getLastD_concat, getLastD_concat]

theorem getLastD_map_elem {l : List Nat} (h : l ≠ []) (d : Ptr) :
    (l.map Ptr.elem).getLastD d = Ptr.elem (l.getLastD 0) := by
  rcases List.eq_nil_or_concat l with rfl | ⟨c, a, hca⟩
  · exact absurd rfl h
  · rw [List.concat_eq_append] at hca
    rw [hca, List.map_append, List.map_cons, List.map_nil, getLastD_concat,
      getLastD_concat]

/-- `operator*` through the successor pointer, for a non-end cursor. -/
theorem deref_eq (s : SkipList V) (p : Ptr) (hp : p ≠ Ptr.end_) :
    deref s p =
      match nodeNextAt s p 0 with
      | none => none
      | some nid => (s.arena nid).map (·.value) := by
  cases p with
  | head => rfl
  | end_ => exact absurd rfl hp
  | elem id => rfl

/-- `operator++` for a non-end cursor. -/
theorem incr_eq (s : SkipList V) (p : Ptr) (hp : p ≠ Ptr.end_) :
    incr s p =
      if some p = tailPrev s then some Ptr.end_
      else
        match nodeNextAt s p 0 with
        | some nid => some (Ptr.elem nid)
        | none => none := by
  cases p with
  | head => rfl
  | end_ => exact absurd rfl hp
  | elem id => rfl

/-- The forward pointer read at the last node of a walked run is the
run's exit pointer. -/
theorem segment_last_next {s : SkipList V} :
    ∀ (l : List Nat) (p : Ptr) (m : Option Nat),
    Segment s 0 (nodeNextAt s p 0) l m →
    nodeNextAt s ((l.map Ptr.elem).getLastD p) 0 = m := by
  intro l
  induction l with
  | nil => intro p m h; exact h
  | cons a t ih =>
    intro p m h
    have h2 : Segment s 0 (nodeNextAt s (Ptr.elem a) 0) t m := by
      rw [nodeNextAt_elem]; exact h.2
    have := ih (Ptr.elem a) m h2
    rw [List.map_cons, List.getLastD_cons]
    exact this

/-- The backward pointer of the last node of a two-or-more element run
names one of the run's nodes. -/
theorem prevIds_getLast_mem {s : SkipList V} :
    ∀ (l : List Nat) (a b : Nat) (p : Ptr),
    PrevIds s p (a :: b :: l) →
    ∃ y ∈ a :: b :: l,
      nodePrev s (Ptr.elem ((a :: b :: l).getLastD 0)) = some (Ptr.elem y) := by
  intro l
  induction l with
  | nil =>
    intro a b p h
    refine ⟨a, by simp, ?_⟩
    simp only [List.getLastD_cons, List.getLastD_nil]
    exact h.2.1
  | cons c r ih =>
    intro a b p h
    obtain ⟨y, hy, hprev⟩ := ih b c (Ptr.elem a) h.2
    have heq : (a :: b :: c :: r).getLastD 0 = (b :: c :: r).getLastD 0 := by
      rw [List.getLastD_cons]
      exact getLastD_ne_nil (by simp) a 0
    exact ⟨y, List.mem_cons_of_mem a hy, by rw [heq]; exact hprev⟩

/-- Forward iteration over a run of the level-0 chain: from the run's
entry cursor, `size`-many dereference/increment steps visit exactly the
run's values.  The cursor hypothesis says the starting node is the head
or an element outside the run; the tail hypothesis drives the jump to
the end sentinel at the run's last node. -/
theorem forList_go {s : SkipList V} :
    ∀ (l : List Nat) (p : Ptr),
    Segment s 0 (nodeNextAt s p 0) l none →
    PrevIds s p l →
    l.Nodup →
    (∀ a ∈ l, (s.arena a).isSome) →
    (p = Ptr.head ∨ ∃ x, p = Ptr.elem x ∧ x ∉ l) →
    (l ≠ [] → s.tail = Ptr.elem (l.getLastD 0)) →
    forList s l.length p = l.filterMap (valueAt s) := by
  intro l
  induction l with
  | nil => intro p _ _ _ _ _ _; rfl
  | cons a t ih =>
    intro p hseg hprev hnd hsome hp htail
    obtain ⟨e, he⟩ := Option.isSome_iff_exists.mp (hsome a (by simp))
    have hpe : p ≠ Ptr.end_ := by
      rcases hp with rfl | ⟨x, rfl, _⟩ <;> simp
    have hnext : nodeNextAt s p 0 = some a := hseg.1
    have hderef : deref s p = some e.value := by
      rw [deref_eq s p hpe, hnext]
      show (s.arena a).map (·.value) = _
      rw [he]
      rfl
    have hval : valueAt s a = some e.value := by
      rw [valueAt, he]
      rfl
    simp only [List.length_cons, forList, hderef, List.filterMap_cons, hval]
    cases t with
    | nil =>
      have htl : s.tail = Ptr.elem a := by
        have := htail (by simp)
        simpa using this
      have htp : tailPrev s = some p := by
        rw [tailPrev, htl]
        exact hprev.1
      rw [incr_eq s p hpe, if_pos (by rw [htp])]
      rfl
    | cons b r =>
      have htl : s.tail = Ptr.elem ((a :: b :: r).getLastD 0) := htail (by simp)
      obtain ⟨y, hy, hyprev⟩ := prevIds_getLast_mem r a b p hprev
      have hneq : ¬ some p = tailPrev s := by
        rw [tailPrev, htl, hyprev]
        rcases hp with rfl | ⟨x, rfl, hx⟩
        · intro hc
          exact Ptr.noConfusion (Option.some.inj hc)
        · intro hc
          exact hx (by rw [Ptr.elem.inj (Option.some.inj hc)]; exact hy)
      rw [incr_eq s p hpe, if_neg hneq, hnext]
      show e.value :: forList s (b :: r).length (Ptr.elem a) = _
      have hseg' : Segment s 0 (nodeNextAt s (Ptr.elem a) 0) (b :: r) none := by
        rw [nodeNextAt_elem]
        exact hseg.2
      have hnd' := List.nodup_cons.mp hnd
      rw [ih (Ptr.elem a) hseg' hprev.2 hnd'.2
        (fun x hx => hsome x (List.mem_cons_of_mem a hx))
        (Or.inr ⟨a, rfl, hnd'.1⟩)
        (fun _ => by
          rw [htl]
          have h1 : (a :: b :: r).getLastD 0 = (b :: r).getLastD 0 := by
            rw [List.getLastD_cons]
            exact getLastD_ne_nil (by simp) a 0
          rw [h1])]

/-- Backward iteration over a run of the level-0 chain: starting from a
cursor that decrements onto the run's last node's predecessor,
`size`-many decrement/dereference steps visit the run's values in
reverse. -/
theorem backList_go {s : SkipList V} :
    ∀ (l : List Nat) (p st : Ptr) (x : Option Nat),
    PrevIds s p l →
    Segment s 0 (nodeNextAt s p 0) l x →
    (∀ a ∈ l, (s.arena a).isSome) →
    p ≠ Ptr.end_ →
    (l ≠ [] → decr s st = some ((l.dropLast.map Ptr.elem).getLastD p)) →
    backList s l.length st = l.reverse.filterMap (valueAt s) := by
  intro l
  induction l using List.reverseRecOn with
  | nil => intro p st x _ _ _ _ _; rfl
  | append_singleton front z ih =>
    intro p st x hprev hseg hsome hpe hst
    have hstz : decr s st = some ((front.map Ptr.elem).getLastD p) := by
      have := hst (by simp)
      rwa [List.dropLast_concat] at this
    obtain ⟨m, hm₁, hm₂⟩ := segment_split hseg
    have hmz : m = some z := hm₂.1
    have hcnext : nodeNextAt s ((front.map Ptr.elem).getLastD p) 0 = some z := by
      rw [segment_last_next front p m hm₁, hmz]
    obtain ⟨e, he⟩ := Option.isSome_iff_exists.mp (hsome z (by simp))
    have hcne : (front.map Ptr.elem).getLastD p ≠ Ptr.end_ := by
      rcases List.eq_nil_or_concat front with rfl | ⟨c2, y, hcy⟩
      · exact hpe
      · rw [List.concat_eq_append] at hcy
        rw [hcy, List.map_append, List.map_cons, List.map_nil, getLastD_concat]
        simp
    have hderef : deref s ((front.map Ptr.elem).getLastD p) = some e.value := by
      rw [deref_eq _ _ hcne, hcnext]
      show (s.arena z).map (·.value) = _
      rw [he]
      rfl
    have hval : valueAt s z = some e.value := by
      rw [valueAt, he]
      rfl
    have hlen : (front ++ [z]).length = front.length + 1 := by simp
    rw [hlen]
    simp only [backList, hstz, hderef]
    rw [(by simp : (front ++ [z]).reverse = z :: front.reverse)]
    simp only [List.filterMap_cons, hval]
    refine congrArg (fun ls => e.value :: ls) ?_
    refine ih p ((front.map Ptr.elem).getLastD p) m
      (prevIds_append.mp hprev).1 hm₁
      (fun b hb => hsome b (List.mem_append.mpr (Or.inl hb))) hpe ?_
    intro hfne
    rcases List.eq_nil_or_concat front with rfl | ⟨f2, y, hfy⟩
    · exact absurd rfl hfne
    rw [List.concat_eq_append] at hfy
    have hc : (front.map Ptr.elem).getLastD p = Ptr.elem y := by
      rw [hfy, List.map_append, List.map_cons, List.map_nil, getLastD_concat]
    have hyprev : nodePrev s (Ptr.elem y) =
        some ((f2.map Ptr.elem).getLastD p) := by
      have hp2 := hprev
      rw [hfy, List.append_assoc] at hp2
      exact ((prevIds_append.mp hp2).2).1
    rw [hc]
    show nodePrev s (Ptr.elem y) = _
    rw [hyprev, hfy, List.dropLast_concat]

/-- Forward iteration of a well-formed container yields the represented
values in chain order. -/
theorem forward_represents {s : SkipList V} {ids : List Nat}
    (h : Represents keyOf s ids) :
    forward s = ids.filterMap (valueAt s) := by
  by_cases hnil : ids = []
  · subst hnil
    have hsz : s.size = 0 := h.sizeEq
    rw [forward, hsz]
    rfl
  · have h0 : 0 < s.head_next.length := by
      rcases Nat.eq_zero_or_pos s.head_next.length with hz | hpos
      · exact absurd ((head_len_zero_iff h).mp hz) hnil
      · exact hpos
    have hseg : Segment s 0 (nodeNextAt s Ptr.head 0) ids none := by
      have := h.links 0 h0
      rw [levelIds_zero h] at this
      rw [nodeNextAt_head]
      exact this
    have hxb : xbegin s = Ptr.head := by
      rw [xbegin, if_neg]
      rw [h.sizeEq]
      simpa using hnil
    rw [forward, hxb, h.sizeEq]
    exact forList_go ids Ptr.head hseg h.prevs h.nodup
      (fun a ha => arena_isSome_of_mem h ha) (Or.inl rfl)
      (fun _ => by rw [h.tailEq]; exact getLastD_map_elem hnil Ptr.head)

/-- Reverse iteration of a well-formed container yields the represented
values in reverse chain order. -/
theorem backward_represents {s : SkipList V} {ids : List Nat}
    (h : Represents keyOf s ids) :
    backward s = (ids.filterMap (valueAt s)).reverse := by
  by_cases hnil : ids = []
  · subst hnil
    have hsz : s.size = 0 := h.sizeEq
    rw [backward, hsz]
    rfl
  · have h0 : 0 < s.head_next.length := by
      rcases Nat.eq_zero_or_pos s.head_next.length with hz | hpos
      · exact absurd ((head_len_zero_iff h).mp hz) hnil
      · exact hpos
    have hseg : Segment s 0 (nodeNextAt s Ptr.head 0) ids none := by
      have := h.links 0 h0
      rw [levelIds_zero h] at this
      rw [nodeNextAt_head]
      exact this
    rw [backward, h.sizeEq, ← List.filterMap_reverse]
    refine backList_go ids Ptr.head Ptr.end_ none h.prevs hseg
      (fun a ha => arena_isSome_of_mem h ha) (by simp) ?_
    intro _
    rcases List.eq_nil_or_concat ids with rfl | ⟨c, z, hcz⟩
    · exact absurd rfl hnil
    rw [List.concat_eq_append] at hcz
    have htl : s.tail = Ptr.elem z := by
      rw [h.tailEq, hcz, List.map_append, List.map_cons, List.map_nil,
        getLastD_concat]
    show tailPrev s = _
    rw [tailPrev, htl]
    have hp2 := h.prevs
    rw [hcz] at hp2
    have hlast := ((prevIds_append.mp hp2).2).1
    rw [hlast, hcz, List.dropLast_concat]

/-- The keys of the values a well-formed container holds, id by id. -/
theorem keys_of_filterMap {s : SkipList V} :
    ∀ {l : List Nat}, (∀ a ∈ l, (s.arena a).isSome) →
    (l.filterMap (valueAt s)).map keyOf = l.map (keyAt keyOf s) := by
  intro l
  induction l with
  | nil => intro _; rfl
  | cons a t ih =>
    intro hsome
    obtain ⟨e, he⟩ := Option.isSome_iff_exists.mp (hsome a (by simp))
    have hval : valueAt s a = some e.value := by
      rw [valueAt, he]
      rfl
    have hkey : keyAt keyOf s a = keyOf e.value := keyAt_eq he
    simp only [List.filterMap_cons, hval, List.map_cons, hkey]
    rw [ih (fun x hx => hsome x (List.mem_cons_of_mem a hx))]

/-- No two live nodes of a well-formed container share a key. -/
theorem represents_key_injective {s : SkipList V} {ids : List Nat}
    (h : Represents keyOf s ids) {a b : Nat} (ha : (s.arena a).isSome)
    (hb : (s.arena b).isSome) (hab : a ≠ b) :
    keyAt keyOf s a ≠ keyAt keyOf s b := by
  have ha' := (h.mem a).mp ha
  have hb' := (h.mem b).mp hb
  obtain ⟨l₁, l₂, hsp⟩ := List.append_of_mem ha'
  have hp := h.sorted
  rw [hsp] at hp hb'
  rw [List.pairwise_append] at hp
  rcases List.mem_append.mp hb' with hbl | hbr
  · exact (ne_of_lt (hp.2.2 b hbl a (by simp))).symm
  · rcases List.mem_cons.mp hbr with rfl | hbl₂
    · exact absurd rfl hab
    · exact ne_of_lt ((List.pairwise_cons.mp hp.2.1).1 b hbl₂)

/-- Every fold of insertions over a well-formed container leaves it
well-formed (for draws below the 64-bit wrap point, whose drawn height
would otherwise be zero). -/
theorem insertAll_represents {eng : Nat → Nat}
    (heng : ∀ n, eng n < 2 ^ 64 - 1) :
    ∀ (vs : List V) (s : SkipList V) (ids : List Nat),
    Represents keyOf s ids → s.engine = eng →
    ∃ ids', Represents keyOf (insertAll keyOf vs s) ids' ∧
      (insertAll keyOf vs s).engine = eng := by
  intro vs
  induction vs with
  | nil => intro s ids h he; exact ⟨ids, h, he⟩
  | cons v vs ih =>
    intro s ids h he
    have hlv : 1 ≤ next_level (s.engine s.steps) := by
      rw [he, next_level]
      have h1 := heng s.steps
      have h2 : eng s.steps + 1 < 2 ^ 64 := by omega
      rw [Nat.mod_eq_of_lt h2]
      omega
    simp only [insertAll]
    by_cases hdup : ∃ xid ∈ ids, keyAt keyOf s xid = keyOf v
    · obtain ⟨xid, hxid, hkey⟩ := hdup
      have hs : (insertValue keyOf s v).2 = s := by
        show (xinsert keyOf s Ptr.end_ v).2 = s
        rw [xinsert_duplicate h hxid hkey]
      rw [hs]
      exact ih s ids h he
    · push_neg at hdup
      obtain ⟨_, hrep, _, _, _, heng'⟩ :=
        xinsert_absent_represents h hdup hlv Ptr.end_
      exact ih _ _ hrep (heng'.trans he)

end Traversal

/-! ## The footprint of erase -/

section EraseFrame

theorem trimTrailing_getD :
    ∀ (l : List (Option Nat)) (i : Nat), l.getD i none ≠ none →
    (trimTrailing l).getD i none = l.getD i none := by
  intro l
  induction l using List.reverseRecOn with
  | nil => intro i hi; exact absurd rfl hi
  | append_singleton l a ih =>
    intro i hi
    cases a with
    | none =>
      have hil : i < l.length := by
        by_contra hcon
        push_neg at hcon
        apply hi
        rw [List.getD_append_right _ _ _ _ hcon]
        rcases hk : i - l.length with _ | k <;> rfl
      have hi2 : l.getD i none ≠ none := by
        rw [List.getD_append _ _ _ _ hil] at hi
        exact hi
      have ht : trimTrailing (l ++ [none]) = trimTrailing l := by
        rw [trimTrailing, trimTrailing,
          (by simp : (l ++ [(none : Option Nat)]).reverse = none :: l.reverse),
          List.dropWhile_cons]
        simp
      rw [ht, List.getD_append _ _ _ _ hil]
      exact ih i hi2
    | some x =>
      have ht : trimTrailing (l ++ [some x]) = l ++ [some x] := by
        rw [trimTrailing,
          (by simp : (l ++ [some x]).reverse = some x :: l.reverse),
          List.dropWhile_cons]
        simp
      rw [ht]

theorem nodeNextAt_congr_of_nodeNext {s t : SkipList V} {p : Ptr}
    (h : nodeNext t p = nodeNext s p) (i : Nat) :
    nodeNextAt t p i = nodeNextAt s p i := by
  simp only [nodeNextAt, h]

/-- The unlink loop of `erase` never changes a stored value, and leaves
the level-0 successor of every node that does not point at the erased
node untouched. -/
theorem unlinkLoop_frame (nid : Nat) (upd : List (Option Ptr)) :
    ∀ (rem i : Nat) (s : SkipList V),
    (∀ q, valueAt (unlinkLoop nid upd i rem s) q = valueAt s q) ∧
    (∀ p, (i = 0 → nodeNextAt s p 0 ≠ some nid) →
      nodeNextAt (unlinkLoop nid upd i rem s) p 0 = nodeNextAt s p 0) := by
  intro rem
  induction rem with
  | zero => intro i s; exact ⟨fun _ => rfl, fun _ _ => rfl⟩
  | succ rem ih =>
    intro i s
    cases hu : upd.getD i none with
    | none =>
      constructor
      · intro q
        simp only [unlinkLoop, hu]
      · intro p _
        simp only [unlinkLoop, hu]
    | some pp =>
      by_cases hchk : nodeNextAt s pp i = some nid
      · constructor
        · intro q
          simp only [unlinkLoop, hu]
          rw [if_pos hchk]
          exact ((ih (i + 1) _).1 q).trans (arena_setNextAt_value s pp i _ q)
        · intro p hc
          simp only [unlinkLoop, hu]
          rw [if_pos hchk]
          have hset : nodeNextAt (setNextAt s pp i
              (nodeNextAt s (Ptr.elem nid) i)) p 0 = nodeNextAt s p 0 := by
            by_cases hpp : p = pp
            · subst hpp
              rcases Nat.eq_zero_or_pos i with rfl | hipos
              · exact absurd hchk (hc rfl)
              · cases p with
                | end_ => rfl
                | head =>
                  simp only [nodeNextAt]
                  rw [nodeNext_setNextAt_self (by simp) i _]
                  exact getD_set_ne _ (by omega) _ _
                | elem id =>
                  simp only [nodeNextAt]
                  rw [nodeNext_setNextAt_self (by simp) i _]
                  exact getD_set_ne _ (by omega) _ _
            · exact nodeNextAt_congr_of_nodeNext (nodeNext_setNextAt_ne hpp i _) 0
          exact ((ih (i + 1) _).2 p
            (fun hc1 => absurd hc1 (Nat.succ_ne_zero i))).trans hset
      · constructor
        · intro q
          simp only [unlinkLoop, hu]
          rw [if_neg hchk]
        · intro p _
          simp only [unlinkLoop, hu]
          rw [if_neg hchk]

theorem eraseS1_value (s : SkipList V) (node : Elem V) (pr : Ptr) (q : Nat) :
    valueAt (eraseS1 s node pr) q = valueAt s q := by
  cases hnn : node.next.getD 0 none with
  | none => simp only [eraseS1, hnn]
  | some nn =>
    simp only [eraseS1, hnn]
    exact arena_setPrevious_value s nn (some pr) q

theorem eraseS1_nodeNext (s : SkipList V) (node : Elem V) (pr : Ptr)
    (q : Ptr) : nodeNext (eraseS1 s node pr) q = nodeNext s q := by
  cases hnn : node.next.getD 0 none with
  | none => simp only [eraseS1, hnn]
  | some nn =>
    simp only [eraseS1, hnn]
    exact nodeNext_setPrevious s nn (some pr) q

theorem eraseS2_value (s : SkipList V) (nid : Nat) (node : Elem V) (q : Nat) :
    valueAt (eraseS2 s nid node) q = valueAt s q := by
  simp only [eraseS2]
  exact ((unlinkLoop_frame _ _ _ _ _).1 q).trans (eraseS1_value _ _ _ q)

theorem eraseS2_nodeNextAt0 {s : SkipList V} {nid : Nat} {node : Elem V}
    {p : Ptr} (hcond : nodeNextAt s p 0 ≠ some nid) :
    nodeNextAt (eraseS2 s nid node) p 0 = nodeNextAt s p 0 := by
  simp only [eraseS2]
  have h1 : nodeNextAt (eraseS1 s node ((eraseUpd s node).getD 0 Ptr.head)) p 0 =
      nodeNextAt s p 0 :=
    nodeNextAt_congr_of_nodeNext (eraseS1_nodeNext _ _ _ p) 0
  exact ((unlinkLoop_frame _ _ _ _ _).2 p
    (fun _ => by rw [h1]; exact hcond)).trans h1

theorem eraseS3_value (s : SkipList V) (nid : Nat) (node : Elem V) (q : Nat) :
    valueAt (eraseS3 s nid node) q = valueAt (eraseS2 s nid node) q := by
  simp only [eraseS3]
  split <;> rfl

theorem eraseS3_arena (s : SkipList V) (nid : Nat) (node : Elem V) :
    (eraseS3 s nid node).arena = (eraseS2 s nid node).arena := by
  simp only [eraseS3]
  split <;> rfl

theorem eraseS3_head (s : SkipList V) (nid : Nat) (node : Elem V) :
    (eraseS3 s nid node).head_next = (eraseS2 s nid node).head_next := by
  simp only [eraseS3]
  split <;> rfl

/-- A live target resolves the two null checks at the top of `erase`. -/
theorem erase_eq {s : SkipList V} {wh : Ptr} {nid : Nat} {node : Elem V}
    (hwh : nodeNextAt s wh 0 = some nid) (hz : s.arena nid = some node) :
    erase s wh = some (eraseNode s nid node) := by
  have hwh2 : (nodeNext s wh).getD 0 none = some nid := hwh
  simp only [erase, hwh2, hz]

/-- Erasing a node leaves the level-0 successor read through any other
cursor, and the stored value of every other node, untouched. -/
theorem eraseNode_frame {s : SkipList V} {nid : Nat} {node : Elem V}
    {p : Ptr} {xid : Nat} (hx : nodeNextAt s p 0 = some xid) (hxz : xid ≠ nid)
    (hpz : p ≠ Ptr.elem nid) :
    nodeNextAt (eraseNode s nid node).2 p 0 = some xid ∧
    ∀ q, q ≠ nid → valueAt (eraseNode s nid node).2 q = valueAt s q := by
  have hne : nodeNextAt s p 0 ≠ some nid := by
    rw [hx]
    intro hc
    exact hxz (Option.some.inj hc)
  have hs2 : nodeNextAt (eraseS2 s nid node) p 0 = some xid :=
    (eraseS2_nodeNextAt0 hne).trans hx
  constructor
  · cases p with
    | end_ => exact Option.noConfusion hx
    | head =>
      show (trimTrailing (eraseS3 s nid node).head_next).getD 0 none = some xid
      rw [eraseS3_head]
      have h20 : (eraseS2 s nid node).head_next.getD 0 none = some xid := hs2
      rw [trimTrailing_getD _ 0 (by rw [h20]; simp), h20]
    | elem q =>
      have hq : q ≠ nid := fun hc => hpz (by rw [hc])
      have harena : (eraseNode s nid node).2.arena q =
          (eraseS2 s nid node).arena q := by
        show (if q = nid then none else (eraseS3 s nid node).arena q) = _
        rw [if_neg hq, eraseS3_arena]
      rw [nodeNextAt_elem] at hs2 ⊢
      exact (elemNextAt_congr harena 0).trans hs2
  · intro q hq
    have harena : (eraseNode s nid node).2.arena q =
        (eraseS2 s nid node).arena q := by
      show (if q = nid then none else (eraseS3 s nid node).arena q) = _
      rw [if_neg hq, eraseS3_arena]
    have h2 := eraseS2_value s nid node q
    simp only [valueAt] at h2 ⊢
    rw [harena, h2]

end EraseFrame

/-! ## The claims -/

section Claims

variable [Inhabited K] [LinearOrder K]

/-- A two-element container built through the public interface: keys 1
and 3 inserted into a fresh container whose injected engine always
draws 0 (every tower gets height 1); its live ids are 0 and 1 in key
order. -/
theorem s13_represents :
    Represents (fun v : Nat => v)
      (insertAll (fun v : Nat => v) [1, 3] (empty Nat (fun _ => 0))) [0, 1] := by
  have h0 : Represents (fun v : Nat => v) (empty Nat (fun _ => 0)) [] :=
    represents_empty _
  have h1 := (xinsert_absent_represents h0 (v := 1) (by simp) (by decide)
    Ptr.end_).2.1
  exact (xinsert_absent_represents h1 (v := 3) (by decide) (by decide)
    Ptr.end_).2.1

/-- Claim C1: every sequence of insertions from an empty container
(with draws below the 64-bit wrap point, where the drawn height would
be zero) yields a container whose forward iteration visits strictly
increasing keys, whose backward iteration is exactly the reverse of the
forward one, and in which no two live element nodes share a key;
the container moreover satisfies the full representation invariant
(sorted, acyclic, coalesced level-0 chain). -/
theorem insert_fold_iteration_sorted (keyOf : V → K) (eng : Nat → Nat)
    (heng : ∀ n, eng n < 2 ^ 64 - 1) (vs : List V) :
    List.Pairwise (· < ·)
      ((forward (insertAll keyOf vs (empty V eng))).map keyOf) ∧
    backward (insertAll keyOf vs (empty V eng)) =
      (forward (insertAll keyOf vs (empty V eng))).reverse ∧
    ∀ a b, ((insertAll keyOf vs (empty V eng)).arena a).isSome →
      ((insertAll keyOf vs (empty V eng)).arena b).isSome → a ≠ b →
      keyAt keyOf (insertAll keyOf vs (empty V eng)) a ≠
        keyAt keyOf (insertAll keyOf vs (empty V eng)) b := by
  obtain ⟨ids, hrep, _⟩ :=
    @insertAll_represents V K _ _ keyOf eng heng vs (empty V eng) []
      (represents_empty eng) rfl
  refine ⟨?_, ?_, fun a b ha hb hab => represents_key_injective hrep ha hb hab⟩
  · rw [forward_represents hrep,
      keys_of_filterMap (fun a ha => arena_isSome_of_mem hrep ha)]
    exact List.pairwise_map.mpr hrep.sorted
  · rw [backward_represents hrep, forward_represents hrep]

theorem insert_fold_iteration_sorted_witness :
    (∀ n : Nat, (fun _ : Nat => 0) n < 2 ^ 64 - 1) ∧
    (List.Pairwise (· < ·)
      ((forward (insertAll (fun v : Nat => v) [2, 1, 2]
        (empty Nat (fun _ => 0)))).map (fun v : Nat => v)) ∧
    backward (insertAll (fun v : Nat => v) [2, 1, 2]
        (empty Nat (fun _ => 0))) =
      (forward (insertAll (fun v : Nat => v) [2, 1, 2]
        (empty Nat (fun _ => 0)))).reverse ∧
    ∀ a b, ((insertAll (fun v : Nat => v) [2, 1, 2]
        (empty Nat (fun _ => 0))).arena a).isSome →
      ((insertAll (fun v : Nat => v) [2, 1, 2]
        (empty Nat (fun _ => 0))).arena b).isSome → a ≠ b →
      keyAt (fun v : Nat => v) (insertAll (fun v : Nat => v) [2, 1, 2]
          (empty Nat (fun _ => 0))) a ≠
        keyAt (fun v : Nat => v) (insertAll (fun v : Nat => v) [2, 1, 2]
          (empty Nat (fun _ => 0))) b) :=
  ⟨fun _ => by norm_num,
   insert_fold_iteration_sorted (fun v : Nat => v) (fun _ => 0)
     (fun _ => by norm_num) [2, 1, 2]⟩

/-- Claim C3 (amended): a second insert of a key already present leaves
the container state (including the stored payload, under map and set
semantics alike) completely unchanged, keeps `size()`, reports
`inserted = false`, and returns a pair holding the existing element's
node itself — which, read as an iterator, dereferences through
`node->next.front()` to the element after the duplicate, not to the
duplicate. -/
theorem duplicate_insert_reports_existing (keyOf : V → K) {s : SkipList V}
    {ids : List Nat} (h : Represents keyOf s ids) {v : V} {xid : Nat}
    (hx : xid ∈ ids) (hk : keyAt keyOf s xid = keyOf v) (hint : Ptr) :
    (xinsert keyOf s hint v).1 = (Ptr.elem xid, false) ∧
    (xinsert keyOf s hint v).2 = s ∧
    (xinsert keyOf s hint v).2.size = s.size ∧
    valueAt (xinsert keyOf s hint v).2 xid = valueAt s xid := by
  rw [xinsert_duplicate h hx hk hint]
  exact ⟨rfl, rfl, rfl, rfl⟩

theorem duplicate_insert_reports_existing_witness :
    (xinsert (fun v : Nat => v)
        (insertAll (fun v : Nat => v) [1, 3] (empty Nat (fun _ => 0)))
        Ptr.end_ 1).1 = (Ptr.elem 0, false) ∧
    (xinsert (fun v : Nat => v)
        (insertAll (fun v : Nat => v) [1, 3] (empty Nat (fun _ => 0)))
        Ptr.end_ 1).2 =
      insertAll (fun v : Nat => v) [1, 3] (empty Nat (fun _ => 0)) ∧
    (xinsert (fun v : Nat => v)
        (insertAll (fun v : Nat => v) [1, 3] (empty Nat (fun _ => 0)))
        Ptr.end_ 1).2.size =
      (insertAll (fun v : Nat => v) [1, 3] (empty Nat (fun _ => 0))).size ∧
    valueAt (xinsert (fun v : Nat => v)
        (insertAll (fun v : Nat => v) [1, 3] (empty Nat (fun _ => 0)))
        Ptr.end_ 1).2 0 =
      valueAt (insertAll (fun v : Nat => v) [1, 3]
        (empty Nat (fun _ => 0))) 0 :=
  duplicate_insert_reports_existing (fun v : Nat => v) (v := 1) s13_represents
    (by decide : (0 : Nat) ∈ [0, 1]) rfl Ptr.end_

/-- Claim C3, counterexample to the spec's wording: with map semantics,
re-inserting key 1 with a new payload 99 into a map holding (1, 10)
leaves the stored payload at 10 (no overwrite), and the returned
"iterator to the existing element" in fact dereferences to nothing (the
duplicate is the last element, so `node->next.front()` is null). -/
theorem map_duplicate_payload_kept :
    (xinsert Prod.fst
        (insertAll Prod.fst [(1, 10)] (empty (Nat × Nat) (fun _ => 0)))
        Ptr.end_ (1, 99)).1 = (Ptr.elem 0, false) ∧
    valueAt (xinsert Prod.fst
        (insertAll Prod.fst [(1, 10)] (empty (Nat × Nat) (fun _ => 0)))
        Ptr.end_ (1, 99)).2 0 = some (1, 10) ∧
    deref (xinsert Prod.fst
        (insertAll Prod.fst [(1, 10)] (empty (Nat × Nat) (fun _ => 0)))
        Ptr.end_ (1, 99)).2 (Ptr.elem 0) = none :=
  ⟨rfl, rfl, rfl⟩

/-- Claim C2 (amended): an iterator holds its element's level-0
predecessor node, so its dereference to the element with key x is
disturbed only by a mutation of that node's level-0 footprint.  It is
preserved by: erasing any element other than x whose node is not the
iterator's stored node; inserting any key already present (a no-op);
and inserting any absent key that does not fall in the gap immediately
before x — that is, any absent key greater than x, or smaller than the
key of the element the stored node itself holds.  (Inserting into the
gap immediately before x redirects the iterator to the new element —
see the counterexample.) -/
theorem iterator_stable_outside_footprint (keyOf : V → K) {s : SkipList V}
    {ids : List Nat} (h : Represents keyOf s ids) {p : Ptr} {xid : Nat}
    {xv : V} (hp : p = Ptr.head ∨ ∃ q ∈ ids, p = Ptr.elem q)
    (hx : nodeNextAt s p 0 = some xid) (hxmem : xid ∈ ids)
    (hxval : valueAt s xid = some xv) :
    (∀ v : V, (∀ id ∈ ids, keyAt keyOf s id ≠ keyOf v) →
      (keyAt keyOf s xid < keyOf v ∨
        ∃ q ∈ ids, p = Ptr.elem q ∧ keyOf v < keyAt keyOf s q) →
      1 ≤ next_level (s.engine s.steps) →
      ∀ hint, deref (xinsert keyOf s hint v).2 p = some xv) ∧
    (∀ (v : V) (d : Nat), d ∈ ids → keyAt keyOf s d = keyOf v →
      ∀ hint, deref (xinsert keyOf s hint v).2 p = some xv) ∧
    (∀ (wh : Ptr) (zid : Nat) (node : Elem V) (r : Ptr) (t : SkipList V),
      nodeNextAt s wh 0 = some zid → s.arena zid = some node →
      zid ≠ xid → Ptr.elem zid ≠ p → erase s wh = some (r, t) →
      deref t p = some xv) := by
  have hpe : p ≠ Ptr.end_ := by
    rcases hp with rfl | ⟨q, _, rfl⟩ <;> simp
  have hderef0 : deref s p = some xv := by
    rw [deref_eq _ p hpe, hx]
    show (s.arena xid).map (·.value) = some xv
    exact hxval
  refine ⟨?_, ?_, ?_⟩
  · intro v habs hgt hlv hint
    obtain ⟨_, _, hnn, hval, _, _⟩ := xinsert_absent_represents h habs hlv hint
    have hpne : p ≠ Ptr.elem s.nextId := by
      rcases hp with rfl | ⟨q, hqmem, rfl⟩
      · simp
      · intro hc
        have hlt := h.fresh q hqmem
        rw [Ptr.elem.inj hc] at hlt
        exact lt_irrefl _ hlt
    have hbne : ¬ (0 < next_level (s.engine s.steps) ∧
        bpredAt keyOf s ids (keyOf v) 0 = p) := by
      rintro ⟨_, hb⟩
      rcases hgt with hgt | ⟨q, hqmem, hpq, hlt⟩
      · -- the new key lies above x, so the splice point is at or after
        -- x's node, never x's predecessor
        have hne : ids ≠ [] := fun hc => by rw [hc] at hxmem; cases hxmem
        have hnx := bpred0_next h (keyOf v) hne
        rw [hb, hx] at hnx
        cases hdw : ids.dropWhile (belowP keyOf s (keyOf v)) with
        | nil =>
          rw [hdw] at hnx
          simp at hnx
        | cons b0 bt =>
          rw [hdw] at hnx
          have hb0 : xid = b0 := by
            simp only [List.head?] at hnx
            exact Option.some.inj hnx
          have hfalse := dropWhile_head_false hdw
          rw [← hb0] at hfalse
          simp only [belowP, decide_eq_false_iff_not] at hfalse
          exact hfalse hgt
      · -- the new key lies below the stored node's own element, so the
        -- splice point is strictly before that node
        rw [bpred0_form h (keyOf v), hpq] at hb
        rcases List.eq_nil_or_concat
            (ids.takeWhile (belowP keyOf s (keyOf v))) with hnil | ⟨c, a, hca⟩
        · rw [hnil] at hb
          exact Ptr.noConfusion hb
        · rw [List.concat_eq_append] at hca
          rw [hca, List.map_append, List.map_cons, List.map_nil,
            getLastD_concat] at hb
          have hamem : a ∈ ids.takeWhile (belowP keyOf s (keyOf v)) := by
            rw [hca]
            simp
          have hbelow := List.mem_takeWhile_imp hamem
          simp only [belowP, decide_eq_true_eq] at hbelow
          rw [Ptr.elem.inj hb] at hbelow
          exact absurd hbelow (lt_asymm hlt)
    have hnn0 : nodeNextAt (xinsert keyOf s hint v).2 p 0 = some xid := by
      rw [hnn p 0 hpne, if_neg hbne]
      exact hx
    have hxidne : xid ≠ s.nextId := by
      intro hc
      have hlt := h.fresh xid hxmem
      rw [hc] at hlt
      exact lt_irrefl _ hlt
    rw [deref_eq _ p hpe, hnn0]
    show ((xinsert keyOf s hint v).2.arena xid).map (·.value) = some xv
    have hv := hval xid hxidne
    simp only [valueAt] at hv
    rw [hv]
    exact hxval
  · intro v d hd hk hint
    rw [xinsert_duplicate h hd hk hint]
    exact hderef0
  · intro wh zid node r t hwh hznode hzx hzp hE
    rw [erase_eq hwh hznode] at hE
    have ht : (eraseNode s zid node).2 = t :=
      congrArg Prod.snd (Option.some.inj hE)
    obtain ⟨hfr1, hfr2⟩ :=
      @eraseNode_frame V s zid node p xid hx (fun hc => hzx hc.symm)
        (Ne.symm hzp)
    rw [← ht, deref_eq _ p hpe, hfr1]
    show ((eraseNode s zid node).2.arena xid).map (·.value) = some xv
    have hv := hfr2 xid (fun hc => hzx hc.symm)
    simp only [valueAt] at hv
    rw [hv]
    exact hxval

theorem iterator_stable_outside_footprint_witness :
    deref (xinsert (fun v : Nat => v)
        (insertAll (fun v : Nat => v) [1, 3] (empty Nat (fun _ => 0)))
        Ptr.end_ 2).2 Ptr.head = some 1 ∧
    deref (xinsert (fun v : Nat => v)
        (insertAll (fun v : Nat => v) [1, 3] (empty Nat (fun _ => 0)))
        Ptr.end_ 0).2 (Ptr.elem 0) = some 3 ∧
    deref (xinsert (fun v : Nat => v)
        (insertAll (fun v : Nat => v) [1, 3] (empty Nat (fun _ => 0)))
        Ptr.end_ 1).2 Ptr.head = some 1 ∧
    deref (eraseNode
        (insertAll (fun v : Nat => v) [1, 3] (empty Nat (fun _ => 0)))
        1 ⟨3, [none], some (Ptr.elem 0)⟩).2 Ptr.head = some 1 := by
  have H := iterator_stable_outside_footprint (fun v : Nat => v)
    s13_represents (Or.inl rfl)
    (rfl : nodeNextAt (insertAll (fun v : Nat => v) [1, 3]
      (empty Nat (fun _ => 0))) Ptr.head 0 = some 0)
    (by decide : (0 : Nat) ∈ [0, 1])
    (rfl : valueAt (insertAll (fun v : Nat => v) [1, 3]
      (empty Nat (fun _ => 0))) 0 = some 1)
  have G := iterator_stable_outside_footprint (fun v : Nat => v)
    s13_represents (Or.inr ⟨0, (by decide : (0 : Nat) ∈ [0, 1]), rfl⟩)
    (rfl : nodeNextAt (insertAll (fun v : Nat => v) [1, 3]
      (empty Nat (fun _ => 0))) (Ptr.elem 0) 0 = some 1)
    (by decide : (1 : Nat) ∈ [0, 1])
    (rfl : valueAt (insertAll (fun v : Nat => v) [1, 3]
      (empty Nat (fun _ => 0))) 1 = some 3)
  refine ⟨H.1 2 (by decide) (Or.inl (by decide)) (by decide) Ptr.end_,
    G.1 0 (by decide)
      (Or.inr ⟨0, (by decide : (0 : Nat) ∈ [0, 1]), rfl, by decide⟩)
      (by decide) Ptr.end_,
    H.2.1 1 0 (by decide) rfl Ptr.end_,
    H.2.2 (Ptr.elem 0) 1 ⟨3, [none], some (Ptr.elem 0)⟩ _ _ rfl rfl
      (by decide) (by decide) rfl⟩

/-- Claim C2, counterexample to the spec's wording: in the container
{1, 3}, the iterator returned by `find(3)` holds the node of key 1; the
insertion of the unrelated key 2 lands in the gap between 1 and 3 and
redirects that iterator, which afterwards dereferences to 2 instead of
3 — an insertion elsewhere invalidated (redirected) the iterator. -/
theorem iterator_redirected_by_gap_insert :
    xfind (fun v : Nat => v)
        (insertAll (fun v : Nat => v) [1, 3] (empty Nat (fun _ => 0))) 3 =
      some (Ptr.elem 0) ∧
    deref (insertAll (fun v : Nat => v) [1, 3] (empty Nat (fun _ => 0)))
        (Ptr.elem 0) = some 3 ∧
    deref (insertValue (fun v : Nat => v)
        (insertAll (fun v : Nat => v) [1, 3] (empty Nat (fun _ => 0)))
        2).2 (Ptr.elem 0) = some 2 :=
  ⟨rfl, rfl, rfl⟩

/-- Claim C4: inserting keys 1 and 2 (engine always drawing 0), finding
key 2 and erasing it succeeds and shrinks the size by one — but the
subsequent `find(2)` runs into the undefined dereference
`node->next.front()->value` with a null `next.front()` at the last
node, modelled by `none`, instead of returning `end()`. -/
theorem find_after_erase_max_key_undefined :
    xfind (fun v : Nat => v)
        (insertAll (fun v : Nat => v) [1, 2] (empty Nat (fun _ => 0))) 2 =
      some (Ptr.elem 0) ∧
    (erase (insertAll (fun v : Nat => v) [1, 2] (empty Nat (fun _ => 0)))
        (Ptr.elem 0)).map
        (fun rt => (rt.1, rt.2.size, xfind (fun v : Nat => v) rt.2 2)) =
      some (Ptr.end_, 1, none) :=
  ⟨rfl, rfl⟩

/-- Claim C5: erasing the first element of the two-element container
{1, 2} through `begin()` returns the erased node itself (the result
iterator is computed from `node->previous->next.front()` before
unlinking): the returned iterator's node is freed (`arena 0 = none`)
and dereferences to nothing, while the element that logically follows,
key 2, is still in the container. -/
theorem erase_returns_destroyed_node :
    (erase (insertAll (fun v : Nat => v) [1, 2] (empty Nat (fun _ => 0)))
        Ptr.head).map
        (fun rt => (rt.1, rt.2.arena 0, deref rt.2 rt.1, forward rt.2)) =
      some (Ptr.elem 0, none, none, [2]) :=
  rfl

/-- Claim C6: on the one-element container {2}, `lower_bound(1)` is
`end()`; `upper_bound(1) = ++lower_bound(1)` increments the end
iterator, which the source forbids (it would read `front()` of the end
sentinel's empty successor vector) — modelled by `none` — so
`count(1)` is undefined rather than 0. -/
theorem count_absent_key_undefined :
    countKey (fun v : Nat => v)
        (insertAll (fun v : Nat => v) [2] (empty Nat (fun _ => 0))) 1 = none ∧
    lowerBound (fun v : Nat => v)
        (insertAll (fun v : Nat => v) [2] (empty Nat (fun _ => 0))) 1 =
      some Ptr.end_ ∧
    upperBound (fun v : Nat => v)
        (insertAll (fun v : Nat => v) [2] (empty Nat (fun _ => 0))) 1 = none :=
  ⟨rfl, rfl, rfl⟩

/-- Claim C7: clearing the one-element container {1} zeroes the size
and frees the node, but leaves the head tower at length 1 still
pointing at the freed node and `tail_` dangling at it — the head
tower is not trimmed to the tallest live tower (zero). -/
theorem clear_leaves_stale_head_tower :
    (xclear (insertAll (fun v : Nat => v) [1]
        (empty Nat (fun _ => 0)))).size = 0 ∧
    (xclear (insertAll (fun v : Nat => v) [1]
        (empty Nat (fun _ => 0)))).arena 0 = none ∧
    (xclear (insertAll (fun v : Nat => v) [1]
        (empty Nat (fun _ => 0)))).head_next = [some 0] ∧
    (xclear (insertAll (fun v : Nat => v) [1]
        (empty Nat (fun _ => 0)))).tail = Ptr.elem 0 :=
  ⟨rfl, rfl, rfl, rfl⟩

/-- Claim C8 (amended): the leveling policy adds 1 to the injected
distribution's draw with no cap at all — `next_level` is the successor
modulo 2^64, so it is `d + 1` (hence at least 1) for every draw below
the wrap point, and heights far beyond 32 are possible. -/
theorem next_level_unbounded_linear {d : Nat} (hd : d < 2 ^ 64 - 1) :
    next_level d = d + 1 ∧ 1 ≤ next_level d := by
  have h2 : d + 1 < 2 ^ 64 := by omega
  rw [next_level, Nat.mod_eq_of_lt h2]
  exact ⟨rfl, by omega⟩

theorem next_level_unbounded_linear_witness :
    (5 : Nat) < 2 ^ 64 - 1 ∧ (next_level 5 = 5 + 1 ∧ 1 ≤ next_level 5) :=
  ⟨by norm_num, next_level_unbounded_linear (by norm_num)⟩

/-- Claim C8, counterexample to the spec's wording: a draw of 32
produces height 33, above the claimed fixed maximum of 32; and at the
64-bit wrap point the produced height is 0, below the claimed minimum
of 1. -/
theorem next_level_exceeds_spec_cap :
    next_level 32 = 33 ∧ ¬ next_level 32 ≤ 32 ∧
    next_level (2 ^ 64 - 1) = 0 := by
  refine ⟨?_, ?_, ?_⟩ <;> decide

/-- Claim C9 (amended): when the allocator throws inside `xconstruct`,
no node has been created or spliced and the element arena, size, tail
and allocation counter are exactly as before the call — but the head
sentinel's tower has already been grown by the drawn number of empty
levels, because the source enlarges `head_->next` before allocating. -/
theorem alloc_fail_preserves_elements (keyOf : V → K) (s : SkipList V)
    (v : V) :
    (xinsertAllocFail keyOf s v).arena = s.arena ∧
    (xinsertAllocFail keyOf s v).size = s.size ∧
    (xinsertAllocFail keyOf s v).tail = s.tail ∧
    (xinsertAllocFail keyOf s v).nextId = s.nextId ∧
    ∃ k, (xinsertAllocFail keyOf s v).head_next =
      s.head_next ++ List.replicate k none := by
  simp only [xinsertAllocFail]
  split
  · exact ⟨rfl, rfl, rfl, rfl, 0, by simp⟩
  · split
    · exact ⟨rfl, rfl, rfl, rfl, _, rfl⟩
    · exact ⟨rfl, rfl, rfl, rfl, 0, by simp⟩

/-- Claim C9, counterexample to the spec's wording: an allocation
failure while inserting into an empty container (draw 1, height 2) does
not leave the container in its prior state — the head tower has grown
from empty to two null levels, breaking the head-height invariant. -/
theorem alloc_fail_grows_head_tower :
    (xinsertAllocFail (fun v : Nat => v) (empty Nat (fun _ => 1)) 5).head_next
      = [none, none] ∧
    (empty Nat (fun _ => 1)).head_next = [] :=
  ⟨rfl, rfl⟩

/-- Claim C10: `insert(hint, value)` ignores the hint completely: it is
definitionally the same computation as `insert(value)` — the hint is
only ever touched by a debug assertion, and the descent starts at the
head sentinel. -/
theorem insert_hint_insensitive (keyOf : V → K) (s : SkipList V) (hint : Ptr)
    (v : V) :
    xinsert keyOf s hint v = insertValue keyOf s v := rfl

end Claims

end SkipList

end SkipListSpec
